import Mathlib

/-!
Verification development for the hierarchical category subsystem of an
e-commerce catalog backend (Django application `products`).

The Python source is shallowly embedded: the category table becomes a list
of records, `Category.save` (slug allocation, materialized-path rebuild and
the cascading descendant recompute), `Category.clean`, the admin views
(`soft_delete_category`, `toggle_category_status`, `CategoryDeleteView.delete`)
and `CategoryForm.clean_name` become executable Lean functions, and
`ProductVariant.clean` / `get_price` / `Product.average_rating` are embedded
directly.  Theorems at the end settle the specification claims.
-/

set_option maxRecDepth 4000

/-- One row of the `products_category` table.  Fields irrelevant to the
claims (images, SEO text, timestamps, `show_in_menu`, `sort_order`) are
omitted; `id` is the primary key, `parent` the nullable self-reference of
`Category.parent` (a `TreeForeignKey` with `on_delete=CASCADE`), `path` the
materialized path column. -/
structure Category where
  id : Nat
  name : String
  slug : String
  parent : Option Nat
  path : String
  is_active : Bool
deriving DecidableEq

/-- The category table: a list of rows. -/
abbrev Store := List Category

/-- Primary-key lookup (`Category.objects.get(pk=i)`), `none` when absent. -/
def find? (s : Store) (i : Nat) : Option Category :=
  s.find? (fun c => decide (c.id = i))

/-- The list of primary keys present in the table. -/
def ids (s : Store) : List Nat := s.map (·.id)

/-- True ASCII word characters of the regex class `\w`. -/
def isWordChar (c : Char) : Bool := c.isAlphanum || c = '_'

/-- ASCII whitespace, the regex class `\s` on ASCII input. -/
def isSpaceChar (c : Char) : Bool := c = ' ' || c = '\t' || c = '\n' || c = '\r'

/-- `str.lower()` on the ASCII range. -/
def asciiLower (c : Char) : Char :=
  if c.toNat ≥ 65 ∧ c.toNat ≤ 90 then Char.ofNat (c.toNat + 32) else c

/-- `django.utils.text.slugify` on ASCII input: lower-case, drop characters
outside `[\w\s-]`, collapse runs of `[-\s]+` into a single `-`, and strip
leading/trailing `-`/`_`. -/
def slugify (value : String) : String :=
  let kept := (value.toList.map asciiLower).filter (fun c => isWordChar c || isSpaceChar c || c = '-')
  let collapsed := (kept.foldl
    (fun (st : List Char × Bool) c =>
      if isSpaceChar c || c = '-' then (if st.2 then st else (st.1 ++ ['-'], true))
      else (st.1 ++ [c], false))
    (([] : List Char), false)).1
  let isStrip := fun (c : Char) => c = '-' || c = '_'
  String.mk (((collapsed.dropWhile isStrip).reverse.dropWhile isStrip).reverse)

/-- The collision test of `Category._generate_unique_slug`:
`Category.objects.filter(slug=slug, parent=self.parent).exclude(pk=self.pk).exists()`. -/
def slugTaken (s : Store) (slug : String) (parent : Option Nat) (selfId : Nat) : Bool :=
  s.any (fun c => decide (c.slug = slug) && decide (c.parent = parent) && !(decide (c.id = selfId)))

/-- The candidate sequence tried by `_generate_unique_slug`: `base`,
`base-1`, `base-2`, ... -/
def slugCandidate (base : String) (k : Nat) : String :=
  if k = 0 then base else base ++ "-" ++ toString k

/-- `Category._generate_unique_slug`'s resulting slug for a row whose `slug`
field is empty: the first untaken candidate.  The while loop always
terminates within `s.length + 1` attempts (each row blocks at most one
candidate), which the bounded search mirrors. -/
def genSlug (s : Store) (name : String) (parent : Option Nat) (selfId : Nat) : String :=
  let base := slugify name
  match (List.range (s.length + 1)).find?
      (fun k => !slugTaken s (slugCandidate base k) parent selfId) with
  | some k => slugCandidate base k
  | none => slugCandidate base (s.length + 1)

/-- `Category._build_path`: `f"{self.parent.path}/{self.slug}" if self.parent
else self.slug`.  The inner `none` branch (a dangling parent key) cannot
occur under foreign-key integrity (`WF` below) and mirrors the root formula. -/
def buildPath (s : Store) (c : Category) : String :=
  match c.parent with
  | none => c.slug
  | some p =>
    match find? s p with
    | some pc => pc.path ++ "/" ++ c.slug
    | none => c.slug

/-- The SQL write performed by `super().save()`: update the row with this
primary key, or insert it when absent. -/
def upsert (s : Store) (c : Category) : Store :=
  if (find? s c.id).isSome then s.map (fun d => if d.id = c.id then c else d)
  else s ++ [c]

/-- `UPDATE products_category SET path = p WHERE id = i`
(`save(update_fields=['path'])`). -/
def setPath (s : Store) (i : Nat) (p : String) : Store :=
  s.map (fun d => if d.id = i then { d with path := p } else d)

/-- One iteration of the descendant loop in `Category.save`:
`child.path = child._build_path(); child.save(update_fields=['path'])`,
with the child re-read from the current table state. -/
def updatePath (s : Store) (i : Nat) : Store :=
  match find? s i with
  | some c => setPath s i (buildPath s c)
  | none => s

/-- The id-to-parent view of a row (`None` when the id is absent).  The
tree-shape functions below depend on the table only through this view. -/
def parentOf (s : Store) (i : Nat) : Option (Option Nat) :=
  (find? s i).map (·.parent)

/-- Distance to the root along parent links, computed with explicit fuel;
`none` when the fuel runs out (a cycle or a dangling key) or the id is
absent. -/
def depthAux (s : Store) : Nat → Nat → Option Nat
  | 0, _ => none
  | fuel + 1, i =>
    match parentOf s i with
    | none => none
    | some none => some 0
    | some (some p) => (depthAux s fuel p).map (· + 1)

/-- Depth of a row; fuel `s.length` suffices on a well-formed table. -/
def depth (s : Store) (i : Nat) : Option Nat := depthAux s s.length i

/-- The chain of ancestor ids (parent first), with explicit fuel. -/
def chainAux (s : Store) : Nat → Nat → List Nat
  | 0, _ => []
  | fuel + 1, i =>
    match parentOf s i with
    | none => []
    | some none => []
    | some (some p) => p :: chainAux s fuel p

/-- All proper ancestors of a row, parent first (MPTT's `get_ancestors`
read from leaf to root). -/
def ancestors (s : Store) (i : Nat) : List Nat := chainAux s s.length i

/-- `i` is a proper descendant of `r` (MPTT's
`r.get_descendants()` contains `i`). -/
def isDesc (s : Store) (r i : Nat) : Bool := decide (r ∈ ancestors s i)

/-- The ids `Category.save` iterates over in
`for child in self.get_descendants()`: every proper descendant of `r`,
ordered ancestors-first (the model uses depth-level order; MPTT uses
depth-first tree order, which is also ancestors-first, and the resulting
table state is the same). -/
def descendantsSorted (s : Store) (r : Nat) : List Nat :=
  ((List.range s.length).map
    (fun d => (s.filter
        (fun c => isDesc s r c.id && decide (depth s c.id = some d))).map (·.id))).flatten

/-- The tail of `Category.save` after `super().save()` has written row `c1`
into table `s1`: rebuild the materialized path; when it changed, persist it
and recompute every descendant's path (descendants re-read from the updated
table, ancestors-first). -/
def saveCore (s1 : Store) (c1 : Category) : Store :=
  let newPath := buildPath s1 c1
  if c1.path = newPath then s1
  else
    let s2 := setPath s1 c1.id newPath
    (descendantsSorted s2 c1.id).foldl updatePath s2

/-- `Category.save`: allocate a slug when the field is empty
(`_generate_unique_slug`), write the row, then rebuild paths. -/
def save (s : Store) (c : Category) : Store :=
  let c1 := if c.slug = "" then { c with slug := genSlug s c.name c.parent c.id } else c
  saveCore (upsert s c1) c1

/-- Admin mutations on the category tree that reach `Category.save`.
`create` models `CategoryCreateView` (fresh primary key assigned by the
database, `slug`/`path` start empty), `rename` and `setSlug` model field
edits saved through `Category.save`, and `move` models a reparent; a move
that would place a node under itself or one of its descendants never
commits (django-mptt raises `InvalidMove` inside the atomic transaction,
so the table is unchanged). -/
inductive Op where
  | create (id : Nat) (name : String) (parent : Option Nat)
  | rename (id : Nat) (newName : String)
  | setSlug (id : Nat) (newSlug : String)
  | move (id : Nat) (newParent : Option Nat)

/-- Apply one operation; guarded operations that fail leave the table
unchanged (the enclosing transaction rolls back). -/
def applyOp (s : Store) (op : Op) : Store :=
  match op with
  | .create i name parent =>
    if i ∈ ids s then s
    else match parent with
      | none => save s ⟨i, name, "", none, "", true⟩
      | some p => if p ∈ ids s then save s ⟨i, name, "", some p, "", true⟩ else s
  | .rename i newName =>
    match find? s i with
    | some c => save s { c with name := newName }
    | none => s
  | .setSlug i newSlug =>
    match find? s i with
    | some c => save s { c with slug := newSlug }
    | none => s
  | .move i newParent =>
    match find? s i with
    | none => s
    | some c =>
      let parentOk := match newParent with
        | none => true
        | some p => decide (p ∈ ids s) && !(decide (p = i)) && !(isDesc s i p)
      if parentOk then save s { c with parent := newParent } else s

/-- Run a sequence of admin operations against the empty table. -/
def applyOps (ops : List Op) : Store := ops.foldl applyOp []

/-- Foreign-key integrity of a parent field: absent, or a present id. -/
def parentKeyOk (s : Store) (c : Category) : Prop :=
  match c.parent with
  | none => True
  | some p => p ∈ ids s

/-- One edge of the rank certificate used to state acyclicity. -/
def rankOk (r : Nat → Nat) (c : Category) : Prop :=
  match c.parent with
  | none => True
  | some p => r p < r c.id

/-- Well-formedness of the stored tree: distinct primary keys, foreign-key
integrity of `parent`, and acyclicity (witnessed by a rank strictly
decreasing from child to parent). -/
structure WF (s : Store) : Prop where
  nodup : (ids s).Nodup
  closure : ∀ c ∈ s, parentKeyOk s c
  acyclic : ∃ r : Nat → Nat, ∀ c ∈ s, rankOk r c

/-- The materialized-path invariant claimed by the specification: every
stored row's `path` equals its parent's stored `path` plus `/` plus its own
slug, or just its slug at a root. -/
def pathInv (s : Store) : Prop := ∀ c ∈ s, c.path = buildPath s c

theorem rankOk_none {r : Nat → Nat} {c : Category} (h : c.parent = none) : rankOk r c := by
  simp [rankOk, h]

theorem rankOk_some {r : Nat → Nat} {c : Category} {p : Nat} (h : c.parent = some p) :
    rankOk r c ↔ r p < r c.id := by
  simp [rankOk, h]

theorem parentKeyOk_none {s : Store} {c : Category} (h : c.parent = none) :
    parentKeyOk s c := by
  simp [parentKeyOk, h]

theorem parentKeyOk_some {s : Store} {c : Category} {p : Nat} (h : c.parent = some p) :
    parentKeyOk s c ↔ p ∈ ids s := by
  simp [parentKeyOk, h]

example : slugify "Electronics" = "electronics" := by decide
example : slugify "  Summer  Dresses " = "summer-dresses" := by decide

/-! ### Basic lookup lemmas -/

theorem find?_id {s : Store} {i : Nat} {c : Category} (h : find? s i = some c) :
    c.id = i := by
  have := List.find?_some h
  exact of_decide_eq_true this

theorem find?_mem {s : Store} {i : Nat} {c : Category} (h : find? s i = some c) :
    c ∈ s := List.mem_of_find?_eq_some h

theorem mem_ids_of_find? {s : Store} {i : Nat} {c : Category} (h : find? s i = some c) :
    i ∈ ids s := by
  have hm : c ∈ s := find?_mem h
  have : c.id = i := find?_id h
  exact this ▸ List.mem_map_of_mem (·.id) hm

theorem find?_isSome_of_mem_ids {s : Store} {i : Nat} (h : i ∈ ids s) :
    (find? s i).isSome := by
  rcases List.mem_map.mp h with ⟨c, hc, hid⟩
  cases hf : find? s i with
  | some d => rfl
  | none =>
    have := List.find?_eq_none.mp hf c hc
    simp [hid] at this

theorem find?_of_mem_nodup {s : Store} {c : Category}
    (hn : (ids s).Nodup) (hc : c ∈ s) : find? s c.id = some c := by
  induction s with
  | nil => cases hc
  | cons a t ih =>
    rcases List.mem_cons.mp hc with h | h
    · subst h
      simp [find?]
    · have hne : a.id ≠ c.id := by
        intro he
        have hmem : c.id ∈ ids t := List.mem_map_of_mem (·.id) h
        have hnin := (List.nodup_cons.mp hn).1
        exact hnin (by simpa [ids, he] using hmem)
      have ht : (ids t).Nodup := (List.nodup_cons.mp hn).2
      have := ih ht h
      simpa [find?, List.find?_cons, hne] using this

/-- Lookup in a table mapped by an id-preserving row transformation. -/
theorem find?_map_presId {s : Store} {i : Nat} (f : Category → Category)
    (hf : ∀ d, (f d).id = d.id) : find? (s.map f) i = (find? s i).map f := by
  induction s with
  | nil => rfl
  | cons a t ih =>
    by_cases h : a.id = i
    · simp [find?, List.find?_cons, hf, h]
    · simpa [find?, List.find?_cons, hf, h] using ih

theorem ids_map_presId {s : Store} (f : Category → Category)
    (hf : ∀ d, (f d).id = d.id) : ids (s.map f) = ids s := by
  simp [ids, List.map_map, Function.comp_def, hf]

theorem find?_append_left {s t : Store} {i : Nat} (h : (find? s i).isSome) :
    find? (s ++ t) i = find? s i := by
  unfold find? at h ⊢
  cases hf : List.find? (fun c => decide (c.id = i)) s with
  | none => rw [hf] at h; cases h
  | some c => rw [List.find?_append, hf]; rfl

theorem find?_append_right {s t : Store} {i : Nat} (h : find? s i = none) :
    find? (s ++ t) i = find? t i := by
  unfold find? at h ⊢
  rw [List.find?_append, h]
  rfl

/-! ### Lemmas about the row-update primitives -/

theorem find?_upsert_self {s : Store} {c : Category} :
    find? (upsert s c) c.id = some c := by
  unfold upsert
  by_cases h : (find? s c.id).isSome
  · rw [if_pos h]
    have hid : ∀ d, ((fun d => if d.id = c.id then c else d) d).id = d.id := by
      intro d; by_cases hd : d.id = c.id <;> simp [hd]
    rw [find?_map_presId _ hid]
    rcases Option.isSome_iff_exists.mp h with ⟨old, hold⟩
    rw [hold]
    simp [find?_id hold]
  · rw [if_neg h]
    have hnone : find? s c.id = none := by
      cases hf : find? s c.id with
      | none => rfl
      | some d => rw [hf] at h; simp at h
    rw [find?_append_right hnone]
    simp [find?]

theorem find?_upsert_other {s : Store} {c : Category} {i : Nat} (h : i ≠ c.id) :
    find? (upsert s c) i = find? s i := by
  unfold upsert
  by_cases hs : (find? s c.id).isSome
  · rw [if_pos hs]
    have hid : ∀ d, ((fun d => if d.id = c.id then c else d) d).id = d.id := by
      intro d; by_cases hd : d.id = c.id <;> simp [hd]
    rw [find?_map_presId _ hid]
    cases hf : find? s i with
    | none => rfl
    | some d =>
      have : d.id = i := find?_id hf
      have : d.id ≠ c.id := by rw [this]; exact h
      simp [this]
  · rw [if_neg hs]
    by_cases hi : (find? s i).isSome
    · exact find?_append_left hi
    · have hnone : find? s i = none := by
        cases hf : find? s i with
        | none => rfl
        | some d => rw [hf] at hi; simp at hi
      rw [find?_append_right hnone, hnone]
      simp [find?, Ne.symm h]

theorem ids_upsert_update {s : Store} {c : Category} (h : (find? s c.id).isSome) :
    ids (upsert s c) = ids s := by
  unfold upsert
  rw [if_pos h]
  exact ids_map_presId _ (by intro d; by_cases hd : d.id = c.id <;> simp [hd])

theorem ids_upsert_insert {s : Store} {c : Category} (h : ¬(find? s c.id).isSome) :
    ids (upsert s c) = ids s ++ [c.id] := by
  unfold upsert
  rw [if_neg h]
  simp [ids]

theorem find?_setPath {s : Store} {i j : Nat} {p : String} :
    find? (setPath s i p) j
      = (find? s j).map (fun d => if d.id = i then { d with path := p } else d) := by
  unfold setPath
  exact find?_map_presId _ (by intro d; by_cases hd : d.id = i <;> simp [hd])

theorem ids_setPath {s : Store} {i : Nat} {p : String} : ids (setPath s i p) = ids s :=
  ids_map_presId _ (by intro d; by_cases hd : d.id = i <;> simp [hd])

/-- The id-and-parent skeleton of the table; the tree-shape functions
factor through it. -/
def pstruct (s : Store) : List (Nat × Option Nat) := s.map (fun c => (c.id, c.parent))

theorem pstruct_setPath {s : Store} {i : Nat} {p : String} :
    pstruct (setPath s i p) = pstruct s := by
  unfold pstruct setPath
  rw [List.map_map]
  apply List.map_congr_left
  intro d _
  by_cases hd : d.id = i <;> simp [hd]

theorem length_pstruct_eq {s t : Store} (h : pstruct s = pstruct t) :
    s.length = t.length := by
  have := congrArg List.length h
  simpa [pstruct] using this

theorem find?_congr_pstruct {s t : Store} (h : pstruct s = pstruct t) (j : Nat) :
    (find? s j).map (fun c => (c.parent, c.id)) = (find? t j).map (fun c => (c.parent, c.id)) := by
  induction s generalizing t with
  | nil =>
    cases t with
    | nil => rfl
    | cons b u => simp [pstruct] at h
  | cons a s' ih =>
    cases t with
    | nil => simp [pstruct] at h
    | cons b u =>
      simp only [pstruct, List.map_cons, List.cons.injEq] at h
      have hid : a.id = b.id := congrArg Prod.fst h.1
      have hpar : a.parent = b.parent := congrArg Prod.snd h.1
      by_cases hj : a.id = j
      · simp [find?, List.find?_cons, hj, hid ▸ hj, hpar, hid]
      · have hbj : ¬ b.id = j := hid ▸ hj
        simpa [find?, List.find?_cons, hj, hbj] using ih h.2

theorem parentOf_congr_pstruct {s t : Store} (h : pstruct s = pstruct t) (j : Nat) :
    parentOf s j = parentOf t j := by
  have := find?_congr_pstruct h j
  unfold parentOf
  cases hs : find? s j with
  | none =>
    cases ht : find? t j with
    | none => rfl
    | some d => rw [hs, ht] at this; cases this
  | some c =>
    cases ht : find? t j with
    | none => rw [hs, ht] at this; cases this
    | some d =>
      rw [hs, ht] at this
      have hpd : c.parent = d.parent := by
        have := congrArg (fun o => Option.map Prod.fst o) this
        simpa using this
      simp [hpd]

theorem ids_congr_pstruct {s t : Store} (h : pstruct s = pstruct t) : ids s = ids t := by
  have := congrArg (·.map Prod.fst) h
  simpa [pstruct, ids, List.map_map, Function.comp_def] using this

/-! ### Equation lemmas for `buildPath`, `depthAux` and `chainAux` -/

theorem buildPath_none {s : Store} {c : Category} (hp : c.parent = none) :
    buildPath s c = c.slug := by
  simp [buildPath, hp]

theorem buildPath_some {s : Store} {c : Category} {p : Nat} {pc : Category}
    (hp : c.parent = some p) (hpc : find? s p = some pc) :
    buildPath s c = pc.path ++ "/" ++ c.slug := by
  simp [buildPath, hp, hpc]

theorem buildPath_dangling {s : Store} {c : Category} {p : Nat}
    (hp : c.parent = some p) (hpc : find? s p = none) :
    buildPath s c = c.slug := by
  simp [buildPath, hp, hpc]

/-- `buildPath` depends only on the row's `parent`/`slug` and the parent's
stored `path`. -/
theorem buildPath_congr {s t : Store} {d d' : Category}
    (hpar : d'.parent = d.parent) (hslug : d'.slug = d.slug)
    (hf : ∀ q, d.parent = some q →
      (find? t q).map (·.path) = (find? s q).map (·.path)) :
    buildPath t d' = buildPath s d := by
  cases hd : d.parent with
  | none =>
    rw [buildPath_none (hpar.trans hd), buildPath_none hd, hslug]
  | some q =>
    have h := hf q hd
    cases hts : find? t q with
    | none =>
      cases hss : find? s q with
      | none =>
        rw [buildPath_dangling (hpar.trans hd) hts, buildPath_dangling hd hss, hslug]
      | some pc => rw [hts, hss] at h; cases h
    | some pc =>
      cases hss : find? s q with
      | none => rw [hts, hss] at h; cases h
      | some pc' =>
        rw [hts, hss] at h
        have hpp : pc.path = pc'.path := by simpa using h
        rw [buildPath_some (hpar.trans hd) hts, buildPath_some hd hss, hpp, hslug]

theorem pstruct_updatePath {s : Store} {i : Nat} :
    pstruct (updatePath s i) = pstruct s := by
  unfold updatePath
  cases find? s i with
  | none => rfl
  | some c => exact pstruct_setPath

theorem pstruct_foldl_updatePath (L : List Nat) (s : Store) :
    pstruct (L.foldl updatePath s) = pstruct s := by
  induction L generalizing s with
  | nil => rfl
  | cons i L' ih =>
    show pstruct (L'.foldl updatePath (updatePath s i)) = pstruct s
    rw [ih, pstruct_updatePath]

/-! ### Fuel lemmas for depth and ancestor chains -/

theorem depthAux_lt {s : Store} : ∀ {f i d : Nat}, depthAux s f i = some d → d < f := by
  intro f
  induction f with
  | zero => intro i d h; cases h
  | succ f' ih =>
    intro i d h
    unfold depthAux at h
    split at h
    · cases h
    · cases h; omega
    · rcases Option.map_eq_some'.mp h with ⟨dp, hdp, hd⟩
      have := ih hdp
      omega

theorem depthAux_fuel {s : Store} :
    ∀ {f i d : Nat} (g : Nat), depthAux s f i = some d → d < g → depthAux s g i = some d := by
  intro f
  induction f with
  | zero => intro i d g h; cases h
  | succ f' ih =>
    intro i d g h hg
    unfold depthAux at h
    cases g with
    | zero => omega
    | succ g' =>
      unfold depthAux
      split at h
      · cases h
      · exact h
      · rcases Option.map_eq_some'.mp h with ⟨dp, hdp, hd⟩
        rw [ih g' hdp (by omega)]
        simpa using hd

theorem chainAux_fuel {s : Store} :
    ∀ {f i d : Nat} (g : Nat), depthAux s f i = some d → f ≤ g →
      chainAux s f i = chainAux s g i := by
  intro f
  induction f with
  | zero => intro i d g h; cases h
  | succ f' ih =>
    intro i d g h hg
    cases g with
    | zero => omega
    | succ g' =>
      unfold depthAux at h
      unfold chainAux
      split at h
      · cases h
      · rfl
      · rcases Option.map_eq_some'.mp h with ⟨dp, hdp, hd⟩
        rw [ih g' hdp (by omega)]

/-! ### Consequences of well-formedness -/

theorem length_filter_le_of_imp {α} (l : List α) (P Q : α → Bool)
    (h : ∀ x ∈ l, P x = true → Q x = true) :
    (l.filter P).length ≤ (l.filter Q).length := by
  induction l with
  | nil => exact Nat.le_refl _
  | cons a t ih =>
    have ih' := ih (fun x hx => h x (List.mem_cons_of_mem a hx))
    by_cases hP : P a = true
    · have hQ := h a (List.mem_cons_self a t) hP
      simp only [List.filter_cons, hP, hQ, if_true, List.length_cons]
      omega
    · have hP' : P a = false := by revert hP; cases P a <;> simp
      simp only [List.filter_cons, hP', Bool.false_eq_true, if_false]
      cases hQ : Q a
      · simpa using ih'
      · simp only [if_true, List.length_cons]
        omega

theorem length_filter_lt_of_imp {α} (l : List α) (P Q : α → Bool)
    (h : ∀ x ∈ l, P x = true → Q x = true)
    (a : α) (ha : a ∈ l) (hQ : Q a = true) (hP : P a = false) :
    (l.filter P).length < (l.filter Q).length := by
  induction l with
  | nil => cases ha
  | cons b t ih =>
    rcases List.mem_cons.mp ha with hb | hb
    · subst hb
      have hle := length_filter_le_of_imp t P Q (fun x hx => h x (List.mem_cons_of_mem a hx))
      simp only [List.filter_cons, hP, hQ, Bool.false_eq_true, if_false, if_true,
        List.length_cons]
      omega
    · have ih' := ih (fun x hx => h x (List.mem_cons_of_mem b hx)) hb
      by_cases hPb : P b = true
      · have hQb := h b (List.mem_cons_self b t) hPb
        simp only [List.filter_cons, hPb, hQb, if_true, List.length_cons]
        omega
      · have hPb' : P b = false := by revert hPb; cases P b <;> simp
        simp only [List.filter_cons, hPb', Bool.false_eq_true, if_false]
        cases hQb : Q b
        · simpa using ih'
        · simp only [if_true, List.length_cons]
          omega

/-- On a well-formed table, every stored id has a well-defined depth at
fuel `s.length`. -/
theorem wf_depth_isSome {s : Store} (hw : WF s) {i : Nat} (hi : i ∈ ids s) :
    (depth s i).isSome := by
  rcases hw.acyclic with ⟨r, hr⟩
  let m : Nat → Nat := fun j => ((ids s).filter (fun x => decide (r x < r j))).length
  have key : ∀ k, ∀ j, j ∈ ids s → m j < k → ∃ d, depthAux s (m j + 1) j = some d := by
    intro k
    induction k with
    | zero => intro j _ h; omega
    | succ k' ih =>
      intro j hj hk
      rcases Option.isSome_iff_exists.mp (find?_isSome_of_mem_ids hj) with ⟨c, hc⟩
      have hcid : c.id = j := find?_id hc
      have hcm : c ∈ s := find?_mem hc
      cases hcp : c.parent with
      | none =>
        refine ⟨0, ?_⟩
        simp [depthAux, parentOf, hc, hcp]
      | some p =>
        have hpmem : p ∈ ids s := by
          have := hw.closure c hcm
          unfold parentKeyOk at this
          rw [hcp] at this
          exact this
        have hrank : r p < r j := by
          have := hr c hcm
          unfold rankOk at this
          rw [hcp] at this
          rw [hcid] at this
          exact this
        have hmlt : m p < m j := by
          apply length_filter_lt_of_imp (ids s) _ _ ?_ p hpmem
          · simpa using hrank
          · simp
          · intro x _ hx
            have h1 : r x < r p := of_decide_eq_true hx
            exact decide_eq_true (by omega)
        rcases ih p hpmem (by omega) with ⟨dp, hdp⟩
        have hdlt : dp < m p + 1 := depthAux_lt hdp
        have hdp' : depthAux s (m j) p = some dp := depthAux_fuel (m j) hdp (by omega)
        refine ⟨dp + 1, ?_⟩
        simp [depthAux, parentOf, hc, hcp, hdp']
  rcases key (m i + 1) i hi (by omega) with ⟨d, hd⟩
  have hmi : m i < (ids s).length := by
    have hstep := length_filter_lt_of_imp (ids s) (fun x => decide (r x < r i)) (fun _ => true)
      (fun x _ _ => rfl) i hi rfl (by simp)
    simpa [List.filter_true] using hstep
  have hlen : (ids s).length = s.length := by simp [ids]
  have hfin : depthAux s s.length i = some d := by
    apply depthAux_fuel s.length hd
    have := depthAux_lt hd
    omega
  rw [depth, hfin]
  rfl

/-- On a well-formed table a row's depth is its parent's depth plus one. -/
theorem depth_parent {s : Store} (hw : WF s) {i p : Nat} {c : Category}
    (hc : find? s i = some c) (hp : c.parent = some p) :
    ∃ dp, depth s p = some dp ∧ depth s i = some (dp + 1) := by
  have hi : i ∈ ids s := mem_ids_of_find? hc
  rcases Option.isSome_iff_exists.mp (wf_depth_isSome hw hi) with ⟨d, hd⟩
  have hd' := hd
  unfold depth at hd'
  cases hn : s.length with
  | zero =>
    rw [hn] at hd'; cases hd'
  | succ n' =>
    rw [hn] at hd'
    unfold depthAux at hd'
    have hpar : parentOf s i = some (some p) := by simp [parentOf, hc, hp]
    rw [hpar] at hd'
    simp only at hd'
    rcases Option.map_eq_some'.mp hd' with ⟨dp, hdp, hdd⟩
    refine ⟨dp, ?_, ?_⟩
    · unfold depth
      rw [hn]
      exact depthAux_fuel (n' + 1) hdp (by have := depthAux_lt hdp; omega)
    · rw [hd, ← hdd]
  -- leave goal-free

/-- On a well-formed table the ancestor chain of a non-root row is its
parent followed by the parent's chain. -/
theorem ancestors_cons {s : Store} (hw : WF s) {i p : Nat} {c : Category}
    (hc : find? s i = some c) (hp : c.parent = some p) :
    ancestors s i = p :: ancestors s p := by
  rcases depth_parent hw hc hp with ⟨dp, hdpp, hdi⟩
  have hlt : dp + 1 < s.length := depthAux_lt hdi
  cases hn : s.length with
  | zero => omega
  | succ n' =>
    unfold ancestors
    rw [hn]
    unfold chainAux
    have hpar : parentOf s i = some (some p) := by simp [parentOf, hc, hp]
    rw [hpar]
    simp only
    have hdp' : depthAux s n' p = some dp := by
      have hbase : depthAux s s.length p = some dp := hdpp
      exact depthAux_fuel n' hbase (by omega)
    rw [chainAux_fuel s.length hdp' (by omega), hn]
    rfl

/-- Along an ancestor chain the acyclicity rank strictly decreases. -/
theorem rank_lt_of_mem_chain {s : Store} {r : Nat → Nat}
    (hr : ∀ c ∈ s, rankOk r c) :
    ∀ {f i a : Nat}, a ∈ chainAux s f i → r a < r i := by
  intro f
  induction f with
  | zero => intro i a h; cases h
  | succ f' ih =>
    intro i a h
    unfold chainAux at h
    split at h
    · cases h
    · cases h
    · next p hp =>
      have hpi : r p < r i := by
        unfold parentOf at hp
        cases hc : find? s i with
        | none => rw [hc] at hp; cases hp
        | some c =>
          rw [hc] at hp
          have hcp : c.parent = some p := by
            simpa using hp
          have := hr c (find?_mem hc)
          unfold rankOk at this
          rw [hcp] at this
          rw [find?_id hc] at this
          exact this
      rcases List.mem_cons.mp h with ha | ha
      · subst ha; exact hpi
      · exact Nat.lt_trans (ih ha) hpi

/-- No row is its own ancestor on a well-formed table. -/
theorem not_self_in_ancestors {s : Store} (hw : WF s) (i : Nat) :
    i ∉ ancestors s i := by
  rcases hw.acyclic with ⟨r, hr⟩
  intro h
  exact absurd (rank_lt_of_mem_chain hr h) (by omega)

/-- No row is its own parent on a well-formed table. -/
theorem not_self_parent {s : Store} (hw : WF s) {i : Nat} {c : Category}
    (hc : find? s i = some c) : c.parent ≠ some i := by
  intro h
  rcases hw.acyclic with ⟨r, hr⟩
  have := hr c (find?_mem hc)
  unfold rankOk at this
  rw [h, find?_id hc] at this
  omega

/-! ### The descendant worklist and its ordering -/

/-- The parent id of a row, `none` at roots and absent ids. -/
def parentIdOf (s : Store) (i : Nat) : Option Nat :=
  match parentOf s i with
  | none => none
  | some po => po

/-- A worklist is processed parents-first: no listed id has its parent at
or after its own position. -/
def parentsFirst (par : Nat → Option Nat) : List Nat → Prop
  | [] => True
  | i :: rest => (∀ q, par i = some q → q ∉ i :: rest) ∧ parentsFirst par rest

theorem parentIdOf_congr_pstruct {s t : Store} (h : pstruct s = pstruct t) (j : Nat) :
    parentIdOf s j = parentIdOf t j := by
  unfold parentIdOf
  rw [parentOf_congr_pstruct h]

theorem parentIdOf_eq_some {s : Store} {i q : Nat} (h : parentIdOf s i = some q) :
    ∃ c, find? s i = some c ∧ c.parent = some q := by
  unfold parentIdOf at h
  cases hp : parentOf s i with
  | none => rw [hp] at h; cases h
  | some po =>
    rw [hp] at h
    unfold parentOf at hp
    cases hc : find? s i with
    | none => rw [hc] at hp; cases hp
    | some c =>
      rw [hc] at hp
      refine ⟨c, rfl, ?_⟩
      have hcpo : c.parent = po := by simpa using hp
      rw [hcpo]
      exact h

theorem parentIdOf_of_find? {s : Store} {i : Nat} {c : Category}
    (hc : find? s i = some c) : parentIdOf s i = c.parent := by
  simp [parentIdOf, parentOf, hc]

theorem mem_descendantsSorted_elim {s : Store} {r x : Nat}
    (hx : x ∈ descendantsSorted s r) : x ∈ ids s ∧ isDesc s r x = true := by
  unfold descendantsSorted at hx
  rcases List.mem_flatten.mp hx with ⟨l, hl, hxl⟩
  rcases List.mem_map.mp hl with ⟨d, _, hld⟩
  subst hld
  rcases List.mem_map.mp hxl with ⟨c, hc, hcx⟩
  rcases List.mem_filter.mp hc with ⟨hcs, hpred⟩
  rcases Bool.and_eq_true_iff.mp hpred with ⟨hdesc, _⟩
  subst hcx
  exact ⟨List.mem_map_of_mem (·.id) hcs, hdesc⟩

theorem mem_descendantsSorted_intro {s : Store} (hw : WF s) {r x : Nat}
    (hxs : x ∈ ids s) (hxd : isDesc s r x = true) : x ∈ descendantsSorted s r := by
  rcases List.mem_map.mp hxs with ⟨c, hcs, hcx⟩
  rcases Option.isSome_iff_exists.mp (wf_depth_isSome hw hxs) with ⟨d, hd⟩
  have hdn : d < s.length := depthAux_lt hd
  unfold descendantsSorted
  apply List.mem_flatten.mpr
  refine ⟨(s.filter (fun c => isDesc s r c.id && decide (depth s c.id = some d))).map (·.id),
    List.mem_map_of_mem _ (List.mem_range.mpr hdn), ?_⟩
  apply List.mem_map.mpr
  refine ⟨c, List.mem_filter.mpr ⟨hcs, ?_⟩, hcx⟩
  apply Bool.and_eq_true_iff.mpr
  constructor
  · rw [hcx]; exact hxd
  · rw [hcx]
    exact decide_eq_true hd

/-- The saved row itself is not in its own descendant worklist. -/
theorem self_not_mem_descendantsSorted {s : Store} (hw : WF s) (r : Nat) :
    r ∉ descendantsSorted s r := by
  intro h
  have := (mem_descendantsSorted_elim h).2
  exact not_self_in_ancestors hw r (of_decide_eq_true this)

/-- A row whose parent is the subtree root, or lies in the subtree, lies in
the subtree. -/
theorem isDesc_of_parent {s : Store} (hw : WF s) {x q r : Nat} {c : Category}
    (hc : find? s x = some c) (hq : c.parent = some q)
    (h : q = r ∨ isDesc s r q = true) : isDesc s r x = true := by
  have hchain := ancestors_cons hw hc hq
  apply decide_eq_true
  rw [hchain]
  rcases h with h | h
  · exact h ▸ List.mem_cons_self q _
  · exact List.mem_cons_of_mem q (of_decide_eq_true h)

/-- Conversely, a subtree member's parent is the root or a subtree member. -/
theorem parent_isDesc_of_isDesc {s : Store} (hw : WF s) {x q r : Nat} {c : Category}
    (hc : find? s x = some c) (hq : c.parent = some q)
    (h : isDesc s r x = true) : q = r ∨ isDesc s r q = true := by
  have hchain := ancestors_cons hw hc hq
  have hmem : r ∈ q :: ancestors s q := hchain ▸ of_decide_eq_true h
  rcases List.mem_cons.mp hmem with h' | h'
  · exact Or.inl h'.symm
  · exact Or.inr (decide_eq_true h')

/-- A subtree member is never a root row. -/
theorem isDesc_has_parent {s : Store} {x r : Nat} {c : Category}
    (hc : find? s x = some c) (hcp : c.parent = none)
    (h : isDesc s r x = true) : False := by
  have hroot : ancestors s x = [] := by
    unfold ancestors
    cases hn : s.length with
    | zero => rfl
    | succ n' =>
      unfold chainAux
      have : parentOf s x = some none := by simp [parentOf, hc, hcp]
      rw [this]
  have := of_decide_eq_true h
  rw [hroot] at this
  cases this

theorem rank_lt_of_parent {s : Store} (hw : WF s) {i q : Nat}
    (hq : parentIdOf s i = some q) :
    (depth s q).getD 0 < (depth s i).getD 0 := by
  rcases parentIdOf_eq_some hq with ⟨c, hc, hcp⟩
  rcases depth_parent hw hc hcp with ⟨dp, hdp, hdi⟩
  rw [hdp, hdi]
  simp

/-- Rows listed in one depth level of the worklist have that depth. -/
theorem rank_of_mem_block {s : Store} {r x d : Nat}
    (hx : x ∈ (s.filter (fun c => isDesc s r c.id && decide (depth s c.id = some d))).map (·.id)) :
    (depth s x).getD 0 = d := by
  rcases List.mem_map.mp hx with ⟨c, hc, hcx⟩
  rcases List.mem_filter.mp hc with ⟨_, hpred⟩
  rcases Bool.and_eq_true_iff.mp hpred with ⟨_, hdep⟩
  have := of_decide_eq_true hdep
  rw [← hcx, this]
  rfl

/-- The descendant worklist is sorted by depth, hence processed
parents-first. -/
theorem parentsFirst_of_sorted (par : Nat → Option Nat) (rk : Nat → Nat) :
    ∀ L : List Nat, (∀ i ∈ L, ∀ q, par i = some q → rk q < rk i) →
      List.Pairwise (fun a b => rk a ≤ rk b) L → parentsFirst par L := by
  intro L
  induction L with
  | nil => intro _ _; trivial
  | cons i rest ih =>
    intro hless hpw
    rcases List.pairwise_cons.mp hpw with ⟨hhead, htail⟩
    constructor
    · intro q hq hmem
      have hlt : rk q < rk i := hless i (List.mem_cons_self i rest) q hq
      rcases List.mem_cons.mp hmem with h | h
      · subst h; omega
      · have := hhead q h
        omega
    · exact ih (fun j hj => hless j (List.mem_cons_of_mem i hj)) htail

theorem pairwise_rank_descendantsSorted (s : Store) (r : Nat) :
    List.Pairwise (fun a b => (depth s a).getD 0 ≤ (depth s b).getD 0)
      (descendantsSorted s r) := by
  unfold descendantsSorted
  apply List.pairwise_flatten.mpr
  constructor
  · intro l hl
    rcases List.mem_map.mp hl with ⟨d, _, hld⟩
    subst hld
    apply List.pairwise_of_forall_mem_list
    intro a ha b hb
    rw [rank_of_mem_block ha, rank_of_mem_block hb]
  · apply List.pairwise_map.mpr
    apply List.Pairwise.imp ?_ (List.pairwise_lt_range s.length)
    intro d e hde x hx y hy
    rw [rank_of_mem_block hx, rank_of_mem_block hy]
    omega

theorem parentsFirst_descendantsSorted {s : Store} (hw : WF s) (r : Nat) :
    parentsFirst (parentIdOf s) (descendantsSorted s r) := by
  apply parentsFirst_of_sorted (parentIdOf s) (fun x => (depth s x).getD 0)
  · intro i _ q hq
    exact rank_lt_of_parent hw hq
  · exact pairwise_rank_descendantsSorted s r

/-! ### The cascading path recompute restores the invariant -/

theorem foldl_updatePath_pathInv (par : Nat → Option Nat) :
    ∀ (L : List Nat) (s : Store),
      (∀ j, parentIdOf s j = par j) →
      (ids s).Nodup →
      (∀ i ∈ L, i ∈ ids s) →
      (∀ d ∈ s, d.id ∉ L → d.path = buildPath s d) →
      (∀ d ∈ s, d.id ∉ L → ∀ q, d.parent = some q → q ∉ L) →
      parentsFirst par L →
      ∀ d ∈ (L.foldl updatePath s), d.path = buildPath (L.foldl updatePath s) d := by
  intro L
  induction L with
  | nil =>
    intro s _ _ _ hsettled _ _ d hd
    exact hsettled d hd (by simp)
  | cons i L' ih =>
    intro s hpar hnodup hmem hsettled hclosed hPF
    have hi : i ∈ ids s := hmem i (List.mem_cons_self i L')
    rcases Option.isSome_iff_exists.mp (find?_isSome_of_mem_ids hi) with ⟨ci, hci⟩
    have hs' : updatePath s i = setPath s i (buildPath s ci) := by
      unfold updatePath
      rw [hci]
    have hparci : par i = ci.parent := by
      rw [← hpar i, parentIdOf_of_find? hci]
    have hpstr : pstruct (updatePath s i) = pstruct s := pstruct_updatePath
    have hids' : ids (updatePath s i) = ids s := ids_congr_pstruct hpstr
    -- the one-step image of a row
    have hmem_shape : ∀ d ∈ updatePath s i, ∃ d0 ∈ s,
        d = if d0.id = i then { d0 with path := buildPath s ci } else d0 := by
      intro d hd
      rw [hs'] at hd
      rcases List.mem_map.mp hd with ⟨d0, hd0, hdd⟩
      exact ⟨d0, hd0, hdd.symm⟩
    have hfind' : ∀ q, q ≠ i →
        (find? (updatePath s i) q).map (·.path) = (find? s q).map (·.path) := by
      intro q hq
      rw [hs', find?_setPath]
      cases hfq : find? s q with
      | none => rfl
      | some e =>
        have : e.id = q := find?_id hfq
        simp [this, hq]
    show ∀ d ∈ (L'.foldl updatePath (updatePath s i)),
      d.path = buildPath (L'.foldl updatePath (updatePath s i)) d
    apply ih (updatePath s i)
    · intro j
      rw [parentIdOf_congr_pstruct hpstr j, hpar j]
    · rw [hids']; exact hnodup
    · intro j hj
      rw [hids']
      exact hmem j (List.mem_cons_of_mem i hj)
    · -- settled rows of the one-step state
      intro d hd hdL'
      rcases hmem_shape d hd with ⟨d0, hd0, hdet⟩
      by_cases hid0 : d0.id = i
      · have hd0ci : d0 = ci := by
          have h1 : find? s d0.id = some d0 := find?_of_mem_nodup hnodup hd0
          rw [hid0, hci] at h1
          exact (Option.some.injEq _ _ ▸ h1).symm
        rw [hdet, if_pos hid0]
        show buildPath s ci = buildPath (updatePath s i) { d0 with path := buildPath s ci }
        refine (buildPath_congr (by rw [hd0ci]) (by rw [hd0ci]) ?_).symm
        intro q hq
        have hqi : q ≠ i := by
          have hqmem := hPF.1 q (by rw [hparci]; exact hq)
          intro he
          exact hqmem (he ▸ List.mem_cons_self i L')
        exact hfind' q hqi
      · rw [hdet, if_neg hid0]
        have hdL : d0.id ∉ i :: L' := by
          intro hmem'
          rcases List.mem_cons.mp hmem' with h | h
          · exact hid0 h
          · rw [hdet, if_neg hid0] at hdL'
            exact hdL' h
        have hold := hsettled d0 hd0 hdL
        rw [hold]
        refine (buildPath_congr rfl rfl ?_).symm
        intro q hq
        have hqni : q ∉ i :: L' := hclosed d0 hd0 hdL q hq
        have hqi : q ≠ i := by
          intro he
          exact hqni (he ▸ List.mem_cons_self i L')
        exact hfind' q hqi
    · -- closure of the settled region
      intro d hd hdL' q hq
      rcases hmem_shape d hd with ⟨d0, hd0, hdet⟩
      by_cases hid0 : d0.id = i
      · have hd0ci : d0 = ci := by
          have h1 : find? s d0.id = some d0 := find?_of_mem_nodup hnodup hd0
          rw [hid0, hci] at h1
          exact (Option.some.injEq _ _ ▸ h1).symm
        have hqd : ci.parent = some q := by
          rw [← hd0ci]
          rw [hdet, if_pos hid0] at hq
          exact hq
        have := hPF.1 q (by rw [hparci]; exact hqd)
        intro hmem'
        exact this (List.mem_cons_of_mem i hmem')
      · have hdeq : d = d0 := by rw [hdet, if_neg hid0]
        have hdL : d0.id ∉ i :: L' := by
          intro hmem'
          rcases List.mem_cons.mp hmem' with h | h
          · exact hid0 h
          · exact hdL' (hdeq ▸ h)
        have := hclosed d0 hd0 hdL q (hdeq ▸ hq)
        intro hmem'
        exact this (List.mem_cons_of_mem i hmem')
    · exact hPF.2

/-! ### Preservation of well-formedness and the path invariant by `save` -/

/-- On a duplicate-free table a member is determined by its id. -/
theorem unique_id_in {t : Store} {i : Nat} {c : Category}
    (hn : (ids t).Nodup) (hc : find? t i = some c) :
    ∀ d ∈ t, d.id = i → d = c := by
  intro d hd hdi
  have h1 : find? t d.id = some d := find?_of_mem_nodup hn hd
  rw [hdi, hc] at h1
  exact (Option.some.injEq _ _ ▸ h1).symm

theorem parentKeyOk_mono {s t : Store} {c : Category}
    (hsub : ∀ x ∈ ids s, x ∈ ids t) (h : parentKeyOk s c) : parentKeyOk t c := by
  unfold parentKeyOk at h ⊢
  cases hc : c.parent with
  | none => trivial
  | some p => rw [hc] at h; exact hsub p h

/-- Well-formedness only depends on the id-and-parent skeleton. -/
theorem WF_congr_pstruct {s t : Store} (h : pstruct s = pstruct t) (hw : WF s) : WF t := by
  have hmemt : ∀ d ∈ t, ∃ d0 ∈ s, d0.id = d.id ∧ d0.parent = d.parent := by
    intro d hd
    have : (d.id, d.parent) ∈ pstruct t := List.mem_map_of_mem _ hd
    rw [← h] at this
    rcases List.mem_map.mp this with ⟨d0, hd0, heq⟩
    exact ⟨d0, hd0, congrArg Prod.fst heq, congrArg Prod.snd heq⟩
  refine ⟨?_, ?_, ?_⟩
  · rw [← ids_congr_pstruct h]; exact hw.nodup
  · intro d hd
    rcases hmemt d hd with ⟨d0, hd0, hid, hpar⟩
    have := hw.closure d0 hd0
    unfold parentKeyOk at this ⊢
    rw [hpar] at this
    cases hc : d.parent with
    | none => trivial
    | some p =>
      rw [hc] at this
      rw [← ids_congr_pstruct h]
      exact this
  · rcases hw.acyclic with ⟨r, hr⟩
    refine ⟨r, ?_⟩
    intro d hd
    rcases hmemt d hd with ⟨d0, hd0, hid, hpar⟩
    have := hr d0 hd0
    unfold rankOk at this ⊢
    rw [hpar, hid] at this
    exact this

/-- Least upper bound of the rank over the stored ids. -/
def rhoSup (r : Nat → Nat) (s : Store) : Nat :=
  s.foldl (fun m c => max m (r c.id)) 0

theorem foldl_max_bounds (r : Nat → Nat) :
    ∀ (l : Store) (a : Nat), a ≤ l.foldl (fun m c => max m (r c.id)) a ∧
      ∀ c ∈ l, r c.id ≤ l.foldl (fun m c => max m (r c.id)) a := by
  intro l
  induction l with
  | nil => intro a; exact ⟨Nat.le_refl a, by intro c hc; cases hc⟩
  | cons b t ih =>
    intro a
    have hstep := ih (max a (r b.id))
    constructor
    · exact Nat.le_trans (Nat.le_max_left a (r b.id)) hstep.1
    · intro c hc
      rcases List.mem_cons.mp hc with h | h
      · subst h
        exact Nat.le_trans (Nat.le_max_right a (r c.id)) hstep.1
      · exact hstep.2 c h

theorem le_rhoSup {r : Nat → Nat} {s : Store} {p : Nat} (hp : p ∈ ids s) :
    r p ≤ rhoSup r s := by
  rcases List.mem_map.mp hp with ⟨c, hc, hcp⟩
  have := (foldl_max_bounds r s 0).2 c hc
  rw [hcp] at this
  exact this

/-- The guard under which a reparent commits: the new parent is neither the
moved row nor one of its descendants (django-mptt's `InvalidMove` check). -/
def noCycleGuard (s : Store) (c : Category) : Prop :=
  ∀ p, c.parent = some p → p ≠ c.id ∧ isDesc s c.id p = false

/-- The `super().save()` write keeps the table well-formed: inserting a
fresh row with a valid parent key, or updating an existing row without
moving it, or moving it under the cycle guard. -/
theorem upsert_WF {s : Store} {c : Category} (hw : WF s)
    (hpar : parentKeyOk s c)
    (hcase : c.id ∉ ids s ∨
      (∃ old, find? s c.id = some old ∧
        (c.parent = old.parent ∨ noCycleGuard s c))) :
    WF (upsert s c) := by
  rcases hcase with hfresh | ⟨old, hold, hdisj⟩
  · -- INSERT
    have hnone : find? s c.id = none := by
      cases hf : find? s c.id with
      | none => rfl
      | some d => exact absurd (mem_ids_of_find? hf) hfresh
    have hup : upsert s c = s ++ [c] := by
      unfold upsert
      rw [hnone]
      rfl
    have hids : ids (upsert s c) = ids s ++ [c.id] := by
      rw [hup]; simp [ids]
    refine ⟨?_, ?_, ?_⟩
    · rw [hids]
      simp only [List.nodup_append, List.nodup_cons, List.not_mem_nil, List.nodup_nil]
      exact ⟨hw.nodup, by simp, by simpa [List.disjoint_singleton] using hfresh⟩
    · intro d hd
      rw [hup] at hd
      have hsub : ∀ x ∈ ids s, x ∈ ids (upsert s c) := by
        intro x hx; rw [hids]; exact List.mem_append_left _ hx
      rcases List.mem_append.mp hd with h | h
      · exact parentKeyOk_mono hsub (hw.closure d h)
      · have : d = c := by simpa using h
        subst this
        exact parentKeyOk_mono hsub hpar
    · rcases hw.acyclic with ⟨r, hr⟩
      refine ⟨fun x => if x = c.id then rhoSup r s + 1 else r x, ?_⟩
      intro d hd
      rw [hup] at hd
      rcases List.mem_append.mp hd with h | h
      · have hdid : d.id ≠ c.id := by
          intro he
          exact hfresh (he ▸ List.mem_map_of_mem (·.id) h)
        have hrk := hr d h
        cases hc : d.parent with
        | none => exact rankOk_none hc
        | some q =>
          have hthis := (rankOk_some hc).mp hrk
          have hq : q ∈ ids s := (parentKeyOk_some hc).mp (hw.closure d h)
          have hqne : q ≠ c.id := by
            intro he; exact hfresh (he ▸ hq)
          apply (rankOk_some hc).mpr
          dsimp only
          rw [if_neg hqne, if_neg hdid]
          exact hthis
      · have : d = c := by simpa using h
        subst this
        cases hc : d.parent with
        | none => exact rankOk_none hc
        | some p =>
          have hpin : p ∈ ids s := (parentKeyOk_some hc).mp hpar
          have hpne : p ≠ d.id := by
            intro he; exact hfresh (he ▸ hpin)
          apply (rankOk_some hc).mpr
          dsimp only
          rw [if_neg hpne, if_pos rfl]
          have := le_rhoSup (r := r) hpin
          omega
  · -- UPDATE
    have hsome : (find? s c.id).isSome := by rw [hold]; rfl
    have hup : upsert s c = s.map (fun d => if d.id = c.id then c else d) := by
      unfold upsert
      rw [if_pos hsome]
    have hidf : ∀ d : Category, ((fun d => if d.id = c.id then c else d) d).id = d.id := by
      intro d; by_cases hd : d.id = c.id <;> simp [hd]
    have hids : ids (upsert s c) = ids s := by
      rw [hup]; exact ids_map_presId _ hidf
    have hshape : ∀ d ∈ upsert s c, ∃ d0 ∈ s, d = if d0.id = c.id then c else d0 := by
      intro d hd
      rw [hup] at hd
      rcases List.mem_map.mp hd with ⟨d0, hd0, hdd⟩
      exact ⟨d0, hd0, hdd.symm⟩
    refine ⟨?_, ?_, ?_⟩
    · rw [hids]; exact hw.nodup
    · intro d hd
      rcases hshape d hd with ⟨d0, hd0, hdet⟩
      have hsub : ∀ x ∈ ids s, x ∈ ids (upsert s c) := by intro x hx; rw [hids]; exact hx
      by_cases hd0 : d0.id = c.id
      · rw [hdet, if_pos hd0]
        exact parentKeyOk_mono hsub hpar
      · rw [hdet, if_neg hd0]
        exact parentKeyOk_mono hsub (hw.closure d0 ‹d0 ∈ s›)
    · rcases hw.acyclic with ⟨r, hr⟩
      refine ⟨fun x => if x = c.id ∨ isDesc s c.id x = true then r x + (rhoSup r s + 1) else r x, ?_⟩
      intro d hd
      rcases hshape d hd with ⟨d0, hd0mem, hdet⟩
      by_cases hd0 : d0.id = c.id
      · -- the rewritten row itself
        rw [hdet, if_pos hd0]
        cases hc : c.parent with
        | none => exact rankOk_none hc
        | some p =>
          apply (rankOk_some hc).mpr
          dsimp only
          have hcondc : (c.id = c.id ∨ isDesc s c.id c.id = true) := Or.inl rfl
          rcases hdisj with hsame | hguard
          · -- parent unchanged
            have holdp : old.parent = some p := by rw [← hsame, hc]
            have hrank : r p < r c.id := by
              have hthis := (rankOk_some holdp).mp (hr old (find?_mem hold))
              rw [find?_id hold] at hthis
              exact hthis
            have hpne : p ≠ c.id := by
              intro he
              exact not_self_parent hw hold (by rw [holdp, he])
            have hpdesc : isDesc s c.id p = false := by
              cases hdq : isDesc s c.id p with
              | false => rfl
              | true =>
                exfalso
                have hchain := ancestors_cons hw hold holdp
                have hmemanc : c.id ∈ ancestors s p := of_decide_eq_true hdq
                have hself : c.id ∈ ancestors s c.id := by
                  rw [hchain]
                  exact List.mem_cons_of_mem p hmemanc
                exact not_self_in_ancestors hw c.id hself
            have hcondp : ¬(p = c.id ∨ isDesc s c.id p = true) := by
              intro h
              rcases h with h | h
              · exact hpne h
              · rw [hpdesc] at h; cases h
            rw [if_neg hcondp, if_pos hcondc]
            omega
          · -- guarded move
            rcases hguard p hc with ⟨hpne, hpdesc⟩
            have hpin : p ∈ ids s := (parentKeyOk_some hc).mp hpar
            have := le_rhoSup (r := r) hpin
            have hcondp : ¬(p = c.id ∨ isDesc s c.id p = true) := by
              intro h
              rcases h with h | h
              · exact hpne h
              · rw [hpdesc] at h; cases h
            rw [if_neg hcondp, if_pos hcondc]
            omega
      · -- untouched rows
        rw [hdet, if_neg hd0]
        cases hcq : d0.parent with
        | none => exact rankOk_none hcq
        | some q =>
          apply (rankOk_some hcq).mpr
          dsimp only
          have hrank : r q < r d0.id := (rankOk_some hcq).mp (hr d0 hd0mem)
          have hfind0 : find? s d0.id = some d0 := find?_of_mem_nodup hw.nodup hd0mem
          by_cases hcond : d0.id = c.id ∨ isDesc s c.id d0.id = true
          · rcases hcond with h | h
            · exact absurd h hd0
            · have hq := parent_isDesc_of_isDesc hw hfind0 hcq h
              have hcondq : q = c.id ∨ isDesc s c.id q = true := hq
              have hcondd : d0.id = c.id ∨ isDesc s c.id d0.id = true := Or.inr h
              rw [if_pos hcondq, if_pos hcondd]
              omega
          · have hcondq : ¬(q = c.id ∨ isDesc s c.id q = true) := by
              intro h
              exact hcond (Or.inr (isDesc_of_parent hw hfind0 hcq h))
            rw [if_neg hcondq, if_neg hcond]
            exact hrank

/-- After `super().save()` the path-rebuild tail of `Category.save` restores
the materialized-path invariant, assuming every row other than the saved one
already satisfies it. -/
theorem saveCore_preserves (s1 : Store) (c1 : Category)
    (hw1 : WF s1)
    (hc1 : find? s1 c1.id = some c1)
    (hsettled : ∀ d ∈ s1, d.id ≠ c1.id → d.path = buildPath s1 d) :
    WF (saveCore s1 c1) ∧ pathInv (saveCore s1 c1) := by
  unfold saveCore
  by_cases hifeq : c1.path = buildPath s1 c1
  · rw [if_pos hifeq]
    refine ⟨hw1, ?_⟩
    intro d hd
    by_cases hdi : d.id = c1.id
    · have hdc : d = c1 := unique_id_in hw1.nodup hc1 d hd hdi
      rw [hdc]
      exact hifeq
    · exact hsettled d hd hdi
  · rw [if_neg hifeq]
    set newPath := buildPath s1 c1 with hnewdef
    have hpstr2 : pstruct (setPath s1 c1.id newPath) = pstruct s1 := pstruct_setPath
    have hw2 : WF (setPath s1 c1.id newPath) := WF_congr_pstruct hpstr2.symm hw1
    set s2 := setPath s1 c1.id newPath with hs2def
    set L := descendantsSorted s2 c1.id with hLdef
    have hpstr3 : pstruct (L.foldl updatePath s2) = pstruct s2 := pstruct_foldl_updatePath L s2
    have hw3 : WF (L.foldl updatePath s2) := WF_congr_pstruct hpstr3.symm hw2
    refine ⟨hw3, ?_⟩
    -- the one-step image of a row under the path write
    have hshape2 : ∀ d ∈ s2, ∃ d0 ∈ s1,
        d = if d0.id = c1.id then { d0 with path := newPath } else d0 := by
      intro d hd
      rw [hs2def] at hd
      rcases List.mem_map.mp hd with ⟨d0, hd0, hdd⟩
      exact ⟨d0, hd0, hdd.symm⟩
    have hfind2 : ∀ q, q ≠ c1.id →
        (find? s2 q).map (·.path) = (find? s1 q).map (·.path) := by
      intro q hq
      rw [hs2def, find?_setPath]
      cases hfq : find? s1 q with
      | none => rfl
      | some e =>
        have : e.id = q := find?_id hfq
        simp [this, hq]
    have hself2 : c1.parent ≠ some c1.id := not_self_parent hw1 hc1
    apply foldl_updatePath_pathInv (parentIdOf s2) L s2 (fun j => rfl) hw2.nodup
    · intro i hi
      exact (mem_descendantsSorted_elim hi).1
    · -- rows outside the worklist already satisfy the invariant in s2
      intro d hd hdL
      rcases hshape2 d hd with ⟨d0, hd0, hdet⟩
      by_cases hid0 : d0.id = c1.id
      · have hd0c : d0 = c1 := unique_id_in hw1.nodup hc1 d0 hd0 hid0
        rw [hdet, if_pos hid0]
        show newPath = buildPath s2 { d0 with path := newPath }
        rw [hd0c]
        refine (buildPath_congr rfl rfl ?_).symm
        intro q hq
        have hqne : q ≠ c1.id := by
          intro he
          exact hself2 (he ▸ hq)
        exact hfind2 q hqne
      · rw [hdet, if_neg hid0]
        have hdL0 : d0.id ∉ L := by
          rw [hdet, if_neg hid0] at hdL
          exact hdL
        have hmem2 : d0 ∈ s2 := by
          have : d = d0 := by rw [hdet, if_neg hid0]
          rw [← this]; exact hd
        have hfd2 : find? s2 d0.id = some d0 := find?_of_mem_nodup hw2.nodup hmem2
        rw [hsettled d0 hd0 hid0]
        refine (buildPath_congr rfl rfl ?_).symm
        intro q hq
        have hqne : q ≠ c1.id := by
          intro he
          apply hdL0
          apply mem_descendantsSorted_intro hw2 (List.mem_map_of_mem (·.id) hmem2)
          exact isDesc_of_parent hw2 hfd2 hq (Or.inl (he ▸ rfl))
        exact hfind2 q hqne
    · -- the settled region is closed under parents
      intro d hd hdL q hq
      intro hqL
      rcases mem_descendantsSorted_elim hqL with ⟨hqids, hqdesc⟩
      have hfd2 : find? s2 d.id = some d := find?_of_mem_nodup hw2.nodup hd
      have : isDesc s2 c1.id d.id = true :=
        isDesc_of_parent hw2 hfd2 hq (Or.inr hqdesc)
      exact hdL (mem_descendantsSorted_intro hw2 (List.mem_map_of_mem (·.id) hd) this)
    · exact parentsFirst_descendantsSorted hw2 c1.id

/-- Field bookkeeping for the slug-allocation step of `save`. -/
theorem slugfill_fields (s : Store) (c : Category) :
    (if c.slug = "" then { c with slug := genSlug s c.name c.parent c.id } else c).id = c.id ∧
    (if c.slug = "" then { c with slug := genSlug s c.name c.parent c.id } else c).parent = c.parent ∧
    (if c.slug = "" then { c with slug := genSlug s c.name c.parent c.id } else c).path = c.path ∧
    (if c.slug = "" then { c with slug := genSlug s c.name c.parent c.id } else c).name = c.name := by
  by_cases h : c.slug = "" <;> simp [h]

/-- `Category.save` keeps the table well-formed and restores the
materialized-path invariant, for a fresh insert, an in-place update, or a
guarded move. -/
theorem save_preserves (s : Store) (c : Category)
    (hw : WF s) (hp : pathInv s)
    (hpar : parentKeyOk s c)
    (hcase : c.id ∉ ids s ∨
      (∃ old, find? s c.id = some old ∧ c.path = old.path ∧
        (c.parent = old.parent ∨ noCycleGuard s c))) :
    WF (save s c) ∧ pathInv (save s c) := by
  set c1 := if c.slug = "" then { c with slug := genSlug s c.name c.parent c.id } else c
    with hc1def
  obtain ⟨hf1, hf2, hf3, hf4⟩ := slugfill_fields s c
  rw [← hc1def] at hf1 hf2 hf3 hf4
  have hsave : save s c = saveCore (upsert s c1) c1 := rfl
  rw [hsave]
  have hpar1 : parentKeyOk s c1 := by
    unfold parentKeyOk
    rw [hf2]
    exact hpar
  have hcase1 : c1.id ∉ ids s ∨
      (∃ old, find? s c1.id = some old ∧ (c1.parent = old.parent ∨ noCycleGuard s c1)) := by
    rcases hcase with h | ⟨old, hold, hpath, hdisj⟩
    · exact Or.inl (hf1 ▸ h)
    · refine Or.inr ⟨old, hf1 ▸ hold, ?_⟩
      rcases hdisj with h | h
      · exact Or.inl (by rw [hf2]; exact h)
      · refine Or.inr ?_
        intro p hp1
        rw [hf2] at hp1
        rcases h p hp1 with ⟨hne, hdesc⟩
        exact ⟨hf1 ▸ hne, hf1 ▸ hdesc⟩
  have hw1 : WF (upsert s c1) := upsert_WF hw hpar1 hcase1
  have hfc1 : find? (upsert s c1) c1.id = some c1 := find?_upsert_self
  refine saveCore_preserves (upsert s c1) c1 hw1 hfc1 ?_
  -- rows other than the saved one keep their old (correct) paths
  intro d hd hdne
  rcases hcase with hfresh | ⟨old, hold, hpath, hdisj⟩
  · -- INSERT
    have hfreshc1 : c1.id ∉ ids s := hf1 ▸ hfresh
    have hnone : find? s c1.id = none := by
      cases hf : find? s c1.id with
      | none => rfl
      | some e => exact absurd (mem_ids_of_find? hf) hfreshc1
    have hup : upsert s c1 = s ++ [c1] := by
      unfold upsert
      rw [hnone]
      rfl
    rw [hup] at hd
    rcases List.mem_append.mp hd with hds | hdc
    · rw [hp d hds]
      refine (buildPath_congr rfl rfl ?_).symm
      intro q hq
      have hqin : q ∈ ids s := (parentKeyOk_some hq).mp (hw.closure d hds)
      have hqne : q ≠ c1.id := by
        intro he
        exact hfreshc1 (he ▸ hqin)
      rw [find?_upsert_other hqne]
    · have : d = c1 := by simpa using hdc
      exact absurd (congrArg Category.id this) hdne
  · -- UPDATE
    have hsome : (find? s c1.id).isSome := by rw [hf1, hold]; rfl
    have hup : upsert s c1 = s.map (fun e => if e.id = c1.id then c1 else e) := by
      unfold upsert
      rw [if_pos hsome]
    rw [hup] at hd
    rcases List.mem_map.mp hd with ⟨d0, hd0, hdd⟩
    by_cases hid0 : d0.id = c1.id
    · rw [← hdd, if_pos hid0] at hdne
      exact absurd rfl hdne
    · rw [← hdd, if_neg hid0]
      rw [hp d0 hd0]
      refine (buildPath_congr rfl rfl ?_).symm
      intro q hq
      by_cases hqc : q = c1.id
      · subst hqc
        rw [find?_upsert_self, hf1, hold]
        have : c1.path = old.path := by rw [hf3, hpath]
        simp [this]
      · rw [find?_upsert_other hqc]

/-- Every admin operation keeps the table well-formed and preserves the
materialized-path invariant. -/
theorem applyOp_preserves (s : Store) (op : Op) (hw : WF s) (hp : pathInv s) :
    WF (applyOp s op) ∧ pathInv (applyOp s op) := by
  cases op with
  | create i name parent =>
    simp only [applyOp]
    by_cases hi : i ∈ ids s
    · rw [if_pos hi]; exact ⟨hw, hp⟩
    · rw [if_neg hi]
      cases parent with
      | none =>
        exact save_preserves s ⟨i, name, "", none, "", true⟩ hw hp
          (parentKeyOk_none rfl) (Or.inl hi)
      | some p =>
        show WF (if p ∈ ids s then save s ⟨i, name, "", some p, "", true⟩ else s) ∧
          pathInv (if p ∈ ids s then save s ⟨i, name, "", some p, "", true⟩ else s)
        by_cases hpin : p ∈ ids s
        · rw [if_pos hpin]
          exact save_preserves s ⟨i, name, "", some p, "", true⟩ hw hp
            ((parentKeyOk_some rfl).mpr hpin) (Or.inl hi)
        · rw [if_neg hpin]; exact ⟨hw, hp⟩
  | rename i newName =>
    simp only [applyOp]
    cases hf : find? s i with
    | none => exact ⟨hw, hp⟩
    | some c =>
      have hfc : find? s c.id = some c := by rw [find?_id hf]; exact hf
      refine save_preserves s { c with name := newName } hw hp ?_ ?_
      · unfold parentKeyOk
        exact hw.closure c (find?_mem hf)
      · exact Or.inr ⟨c, hfc, rfl, Or.inl rfl⟩
  | setSlug i newSlug =>
    simp only [applyOp]
    cases hf : find? s i with
    | none => exact ⟨hw, hp⟩
    | some c =>
      have hfc : find? s c.id = some c := by rw [find?_id hf]; exact hf
      refine save_preserves s { c with slug := newSlug } hw hp ?_ ?_
      · unfold parentKeyOk
        exact hw.closure c (find?_mem hf)
      · exact Or.inr ⟨c, hfc, rfl, Or.inl rfl⟩
  | move i newParent =>
    simp only [applyOp]
    cases hf : find? s i with
    | none => exact ⟨hw, hp⟩
    | some c =>
      have hfc : find? s c.id = some c := by rw [find?_id hf]; exact hf
      have hci : c.id = i := find?_id hf
      cases newParent with
      | none =>
        show WF (save s { c with parent := none }) ∧ pathInv (save s { c with parent := none })
        refine save_preserves s { c with parent := none } hw hp (parentKeyOk_none rfl) ?_
        refine Or.inr ⟨c, hfc, rfl, Or.inr ?_⟩
        intro p hp1
        cases hp1
      | some p =>
        show WF (if (decide (p ∈ ids s) && !(decide (p = i)) && !(isDesc s i p)) = true
              then save s { c with parent := some p } else s) ∧
          pathInv (if (decide (p ∈ ids s) && !(decide (p = i)) && !(isDesc s i p)) = true
              then save s { c with parent := some p } else s)
        by_cases hguard : (decide (p ∈ ids s) && !(decide (p = i)) && !(isDesc s i p)) = true
        · rw [if_pos hguard]
          rcases Bool.and_eq_true_iff.mp hguard with ⟨hg1, hg3⟩
          rcases Bool.and_eq_true_iff.mp hg1 with ⟨hg1a, hg2⟩
          have hpin : p ∈ ids s := of_decide_eq_true hg1a
          have hpne : p ≠ i := by
            intro he
            rw [he] at hg2
            simp at hg2
          have hdesc : isDesc s i p = false := by
            cases hx : isDesc s i p with
            | false => rfl
            | true => rw [hx] at hg3; cases hg3
          refine save_preserves s { c with parent := some p } hw hp
            ((parentKeyOk_some rfl).mpr hpin) ?_
          refine Or.inr ⟨c, hfc, rfl, Or.inr ?_⟩
          intro q hq1
          have hqp : q = p := by cases hq1; rfl
          subst hqp
          constructor
          · show q ≠ ({ c with parent := some q } : Category).id
            rw [show ({ c with parent := some q } : Category).id = c.id from rfl, hci]
            exact hpne
          · rw [show ({ c with parent := some q } : Category).id = c.id from rfl, hci]
            exact hdesc
        · rw [if_neg hguard]; exact ⟨hw, hp⟩

theorem applyOps_invariant (ops : List Op) :
    ∀ s, WF s → pathInv s → WF (ops.foldl applyOp s) ∧ pathInv (ops.foldl applyOp s) := by
  induction ops with
  | nil => intro s hw hp; exact ⟨hw, hp⟩
  | cons op rest ih =>
    intro s hw hp
    rcases applyOp_preserves s op hw hp with ⟨hw', hp'⟩
    exact ih (applyOp s op) hw' hp'

theorem WF_empty : WF ([] : Store) := by
  refine ⟨?_, ?_, ⟨fun _ => 0, ?_⟩⟩
  · simp [ids]
  · intro c hc; cases hc
  · intro c hc; cases hc

/-- C1: For every category in the stored tree, after any sequence of
create/rename/slug-edit/move operations applied through `Category.save`
starting from an empty table, the materialized path satisfies
`path(C) = path(parent(C)) ++ "/" ++ slug(C)` when `C` has a parent and
`path(C) = slug(C)` at a root; in particular the cascading recompute inside
`Category.save` re-establishes this equation for the saved row and all of
its descendants before the write completes, so it holds in every state the
operation sequence can observe. -/
theorem c1_materialized_path_invariant (ops : List Op) :
    ∀ c ∈ applyOps ops, c.path = buildPath (applyOps ops) c :=
  (applyOps_invariant ops [] WF_empty (by intro c hc; cases hc)).2

theorem c1_materialized_path_invariant_witness :
    (⟨2, "Mobiles", "mobiles", some 1, "electronics/mobiles", true⟩ : Category).path
      = buildPath
        (applyOps [Op.create 1 "Electronics" none, Op.create 2 "Mobiles" (some 1),
          Op.create 3 "Smartphones" (some 2)])
        ⟨2, "Mobiles", "mobiles", some 1, "electronics/mobiles", true⟩ :=
  c1_materialized_path_invariant
    [Op.create 1 "Electronics" none, Op.create 2 "Mobiles" (some 1),
      Op.create 3 "Smartphones" (some 2)]
    ⟨2, "Mobiles", "mobiles", some 1, "electronics/mobiles", true⟩ (by decide)

/-- C2 (counterexample): creating Electronics → Mobiles → Smartphones and
then renaming "Mobiles" to "Phones" through `Category.save` does NOT update
the grandchild's path to `"electronics/phones/smartphones"`:
`_generate_unique_slug` returns immediately on a non-empty slug, so the
rename changes neither "mobiles" nor any path. -/
theorem c2_rename_roundtrip_counterexample :
    (find? (applyOps [Op.create 1 "Electronics" none, Op.create 2 "Mobiles" (some 1),
        Op.create 3 "Smartphones" (some 2), Op.rename 2 "Phones"]) 3).map (·.path)
      = some "electronics/mobiles/smartphones" ∧
    (find? (applyOps [Op.create 1 "Electronics" none, Op.create 2 "Mobiles" (some 1),
        Op.create 3 "Smartphones" (some 2), Op.rename 2 "Phones"]) 3).map (·.path)
      ≠ some "electronics/phones/smartphones" := by
  constructor
  · decide
  · decide

/-- C2 (amended): the creation chain yields paths `"electronics"`,
`"electronics/mobiles"` and `"electronics/mobiles/smartphones"`; renaming
"Mobiles" to "Phones" changes only the display name — the slug is never
re-derived while non-empty, so the renamed row keeps slug `"mobiles"` and
the grandchild keeps path `"electronics/mobiles/smartphones"`.  (Clearing
the slug as well would re-slugify and cascade the paths.) -/
theorem c2_roundtrip_amended :
    (find? (applyOps [Op.create 1 "Electronics" none, Op.create 2 "Mobiles" (some 1),
        Op.create 3 "Smartphones" (some 2)]) 1).map (·.path) = some "electronics" ∧
    (find? (applyOps [Op.create 1 "Electronics" none, Op.create 2 "Mobiles" (some 1),
        Op.create 3 "Smartphones" (some 2)]) 2).map (·.path) = some "electronics/mobiles" ∧
    (find? (applyOps [Op.create 1 "Electronics" none, Op.create 2 "Mobiles" (some 1),
        Op.create 3 "Smartphones" (some 2)]) 3).map (·.path)
      = some "electronics/mobiles/smartphones" ∧
    (find? (applyOps [Op.create 1 "Electronics" none, Op.create 2 "Mobiles" (some 1),
        Op.create 3 "Smartphones" (some 2), Op.rename 2 "Phones"]) 2).map
        (fun c => (c.name, c.slug, c.path))
      = some ("Phones", "mobiles", "electronics/mobiles") ∧
    (find? (applyOps [Op.create 1 "Electronics" none, Op.create 2 "Mobiles" (some 1),
        Op.create 3 "Smartphones" (some 2), Op.rename 2 "Phones"]) 3).map (·.path)
      = some "electronics/mobiles/smartphones" := by
  refine ⟨by decide, by decide, by decide, by decide, by decide⟩

/-! ### `Category.clean` and the cycle check (claim C3) -/

/-- `Category.clean` for a row being updated (`self.pk` is set): raises a
`ValidationError` ("A category cannot be its own descendant") exactly when
the in-memory row `a` has a parent `b` and
`b.get_descendants(include_self=True).filter(pk=a.pk).exists()` — i.e. when
the stored row with `a`'s primary key lies in the stored subtree of the new
parent (or equals it).  The descendant query runs against the stored tree,
before the move is written. -/
def cleanRaises (s : Store) (a : Category) : Bool :=
  match a.parent with
  | none => false
  | some b => decide (a.id = b) || isDesc s b a.id

/-- The cycle condition stated by the specification: the new parent `b` is
the moved category itself or one of its stored descendants
(`b ∈ descendants(a, includeSelf=true)`). -/
def specCycleCond (s : Store) (aId b : Nat) : Bool :=
  decide (b = aId) || isDesc s aId b

/-! ### `CategoryForm.clean_name` and form-based creation (claim C4) -/

/-- `name__iexact` comparison (case-insensitive equality, ASCII case fold). -/
def iexact (a b : String) : Bool :=
  decide (a.toList.map asciiLower = b.toList.map asciiLower)

/-- Python `str.strip()` on ASCII input: drop leading and trailing
whitespace. -/
def pyStrip (sv : String) : String :=
  String.mk (((sv.toList.dropWhile isSpaceChar).reverse.dropWhile isSpaceChar).reverse)

/-- `CategoryForm.clean_name`: requires a name, strips it, requires at least
two characters, and rejects when a sibling under the same parent already
has the same name case-insensitively
(`Category.objects.filter(parent=parent, name__iexact=name)`, excluding the
form's own instance when updating). -/
def clean_name (s : Store) (name : String) (parent : Option Nat) (selfPk : Option Nat) :
    Except String String :=
  if name = "" then .error "Category name is required."
  else
    let n := pyStrip name
    if n.length < 2 then .error "Name must be at least 2 characters long."
    else if s.any (fun c => decide (c.parent = parent) && iexact c.name n
        && decide (selfPk ≠ some c.id)) then
      .error "A category with this name already exists under the selected parent."
    else .ok n

/-- Creation through `CategoryForm`: `clean_name` validates, then the model
is saved (slug allocation and path build happen inside `Category.save`).
The fresh primary key is assigned by the database. -/
def formCreateCategory (s : Store) (freshId : Nat) (name : String) (parent : Option Nat) :
    Except String Store :=
  match clean_name s name parent none with
  | .error e => .error e
  | .ok n => .ok (save s ⟨freshId, n, "", parent, "", true⟩)

/-- The id/name/parent view of the table; `save` only rewrites `slug` and
`path`, so this view is unchanged by the path cascade. -/
def nstruct (s : Store) : List (Nat × String × Option Nat) :=
  s.map (fun c => (c.id, c.name, c.parent))

theorem nstruct_setPath {s : Store} {i : Nat} {p : String} :
    nstruct (setPath s i p) = nstruct s := by
  unfold nstruct setPath
  rw [List.map_map]
  apply List.map_congr_left
  intro d _
  by_cases hd : d.id = i <;> simp [hd]

theorem nstruct_updatePath {s : Store} {i : Nat} :
    nstruct (updatePath s i) = nstruct s := by
  unfold updatePath
  cases find? s i with
  | none => rfl
  | some c => exact nstruct_setPath

theorem nstruct_foldl_updatePath (L : List Nat) (s : Store) :
    nstruct (L.foldl updatePath s) = nstruct s := by
  induction L generalizing s with
  | nil => rfl
  | cons i L' ih =>
    show nstruct (L'.foldl updatePath (updatePath s i)) = nstruct s
    rw [ih, nstruct_updatePath]

/-- The row written by `save` is present afterwards with its id, name and
parent intact (only `slug` and `path` may have been rewritten). -/
theorem save_mem_fields (s : Store) (c : Category) :
    ∃ d ∈ save s c, d.id = c.id ∧ d.name = c.name ∧ d.parent = c.parent := by
  set c1 := if c.slug = "" then { c with slug := genSlug s c.name c.parent c.id } else c
    with hc1def
  obtain ⟨hf1, hf2, hf3, hf4⟩ := slugfill_fields s c
  rw [← hc1def] at hf1 hf2 hf3 hf4
  have hmem1 : c1 ∈ upsert s c1 := find?_mem find?_upsert_self
  have hnst : nstruct (save s c) = nstruct (upsert s c1) := by
    rw [show save s c = saveCore (upsert s c1) c1 from rfl]
    unfold saveCore
    by_cases h : c1.path = buildPath (upsert s c1) c1
    · rw [if_pos h]
    · rw [if_neg h]
      rw [nstruct_foldl_updatePath, nstruct_setPath]
  have hin : (c1.id, c1.name, c1.parent) ∈ nstruct (save s c) := by
    rw [hnst]
    exact List.mem_map_of_mem _ hmem1
  rcases List.mem_map.mp hin with ⟨d, hd, heq⟩
  refine ⟨d, hd, ?_, ?_, ?_⟩
  · rw [← hf1]; exact congrArg Prod.fst heq
  · rw [← hf4]; exact congrArg (fun x => x.snd.fst) heq
  · rw [← hf2]; exact congrArg (fun x => x.snd.snd) heq

/-- C3: the cycle check in `Category.clean` is reversed.  In the stored
tree Electronics(1) ← Mobiles(2), moving category 1 under its own
descendant 2 — a true cycle, which the specification says must fail with a
CycleError — does NOT raise (`clean` asks whether 1 lies in the stored
subtree of 2, which is false), while saving category 2 with its parent
unchanged (parent 1, an ancestor, no cycle — the specification says this
must succeed) DOES raise, because 2 lies in the stored subtree of its own
parent.  `cleanRaises` disagrees with `specCycleCond` in both directions. -/
theorem c3_cycle_check_reversed_eval :
    cleanRaises
        [⟨1, "Electronics", "electronics", none, "electronics", true⟩,
         ⟨2, "Mobiles", "mobiles", some 1, "electronics/mobiles", true⟩]
        ⟨1, "Electronics", "electronics", some 2, "electronics", true⟩ = false ∧
    specCycleCond
        [⟨1, "Electronics", "electronics", none, "electronics", true⟩,
         ⟨2, "Mobiles", "mobiles", some 1, "electronics/mobiles", true⟩] 1 2 = true ∧
    cleanRaises
        [⟨1, "Electronics", "electronics", none, "electronics", true⟩,
         ⟨2, "Mobiles", "mobiles", some 1, "electronics/mobiles", true⟩]
        ⟨2, "Mobiles", "mobiles", some 1, "electronics/mobiles", true⟩ = true ∧
    specCycleCond
        [⟨1, "Electronics", "electronics", none, "electronics", true⟩,
         ⟨2, "Mobiles", "mobiles", some 1, "electronics/mobiles", true⟩] 2 1 = false := by
  refine ⟨by decide, by decide, by decide, by decide⟩

/-- C4: creating a second category through `CategoryForm` whose name equals
an existing sibling's name up to letter case fails `clean_name` with a
ValidationError, while creating the same name under a different parent (one
with no case-insensitive name clash) passes validation and stores the row
with the stripped name under that parent. -/
theorem c4_sibling_name_case_insensitive
    (s : Store) (c : Category) (name : String) (p' : Option Nat) (fid : Nat)
    (hc : c ∈ s)
    (hne : ¬(name = ""))
    (hmatch : iexact c.name (pyStrip name) = true)
    (hlen : 2 ≤ (pyStrip name).length)
    (hdiff : ∀ d ∈ s, d.parent = p' → iexact d.name (pyStrip name) = false) :
    (∃ e, formCreateCategory s fid name c.parent = .error e) ∧
    (∃ s', formCreateCategory s fid name p' = .ok s' ∧
      ∃ d ∈ s', d.id = fid ∧ d.name = pyStrip name ∧ d.parent = p') := by
  have hlen' : ¬((pyStrip name).length < 2) := by omega
  constructor
  · have hany : (s.any (fun d => decide (d.parent = c.parent) && iexact d.name (pyStrip name)
        && decide ((none : Option Nat) ≠ some d.id))) = true := by
      apply List.any_eq_true.mpr
      refine ⟨c, hc, ?_⟩
      simp [hmatch]
    refine ⟨"A category with this name already exists under the selected parent.", ?_⟩
    unfold formCreateCategory clean_name
    rw [if_neg hne]
    dsimp only
    rw [if_neg hlen', if_pos hany]
  · have hany : (s.any (fun d => decide (d.parent = p') && iexact d.name (pyStrip name)
        && decide ((none : Option Nat) ≠ some d.id))) = false := by
      cases hx : (s.any (fun d => decide (d.parent = p') && iexact d.name (pyStrip name)
          && decide ((none : Option Nat) ≠ some d.id))) with
      | false => rfl
      | true =>
        exfalso
        rcases List.any_eq_true.mp hx with ⟨d, hd, hpred⟩
        rcases Bool.and_eq_true_iff.mp hpred with ⟨h1, _⟩
        rcases Bool.and_eq_true_iff.mp h1 with ⟨hA, hB⟩
        have := hdiff d hd (of_decide_eq_true hA)
        rw [this] at hB
        cases hB
    refine ⟨save s ⟨fid, pyStrip name, "", p', "", true⟩, ?_, ?_⟩
    · unfold formCreateCategory clean_name
      rw [if_neg hne]
      dsimp only
      rw [if_neg hlen']
      simp only [hany, Bool.false_eq_true, if_false]
    · exact save_mem_fields s ⟨fid, pyStrip name, "", p', "", true⟩

theorem c4_sibling_name_case_insensitive_witness :
    (∃ e, formCreateCategory [⟨1, "Phones", "phones", none, "phones", true⟩]
        2 "pHoNeS" none = .error e) ∧
    (∃ s', formCreateCategory [⟨1, "Phones", "phones", none, "phones", true⟩]
        2 "pHoNeS" (some 1) = .ok s' ∧
      ∃ d ∈ s', d.id = 2 ∧ d.name = pyStrip "pHoNeS" ∧ d.parent = some 1) := by
  have h := c4_sibling_name_case_insensitive
    [⟨1, "Phones", "phones", none, "phones", true⟩]
    ⟨1, "Phones", "phones", none, "phones", true⟩
    "pHoNeS" (some 1) 2
    (by decide) (by decide) (by decide) (by decide) (by decide)
  exact h

/-! ### Products, the admin AJAX endpoints and the delete view -/

/-- One row of the product table, restricted to the fields the category
claims need: `category` is the `TreeForeignKey(Category,
on_delete=models.PROTECT)` of `Product` (declared without a
`related_name`). -/
structure Product where
  id : Nat
  category : Nat
deriving DecidableEq

/-- The slice of the database the category views touch. -/
structure DB where
  cats : Store
  prods : List Product
deriving DecidableEq

/-- `hasattr(category, "products")`: `Product.category` declares no
`related_name`, so the reverse accessor on a `Category` instance is
`product_set`, not `products`.  The attribute therefore never exists and
the value is constantly `False`. -/
def categoryHasProductsAttr : Bool := false

/-- `has_products(category)` from `views.py`:
`hasattr(obj, "products") and obj.products.exists()`.  For categories the
`hasattr` conjunct is always `False` (see `categoryHasProductsAttr`), so
the product table is never consulted. -/
def has_products_category (db : DB) (cid : Nat) : Bool :=
  categoryHasProductsAttr && db.prods.any (fun p => decide (p.category = cid))

/-- Whether any stored product actually references the category — the
check the specification prescribes (reachable in Django only through the
real reverse accessor `product_set`). -/
def productsReference (db : DB) (cid : Nat) : Bool :=
  db.prods.any (fun p => decide (p.category = cid))

/-- `category.children.filter(is_active=True).exists()`. -/
def activeChildExists (s : Store) (cid : Nat) : Bool :=
  s.any (fun c => decide (c.parent = some cid) && c.is_active)

/-- `UPDATE products_category SET is_active = b WHERE id = i`
(`save(update_fields=["is_active"])`; the overridden `save` re-runs the
path rebuild, which is a no-op because neither slug nor parent changed). -/
def setActive (s : Store) (i : Nat) (b : Bool) : Store :=
  s.map (fun d => if d.id = i then { d with is_active := b } else d)

theorem find?_setActive {s : Store} {i j : Nat} {b : Bool} :
    find? (setActive s i b) j
      = (find? s j).map (fun d => if d.id = i then { d with is_active := b } else d) := by
  unfold setActive
  exact find?_map_presId _ (by intro d; by_cases hd : d.id = i <;> simp [hd])

/-- Outcome of the `soft_delete_category` AJAX view. -/
inductive SoftDeleteResult where
  | notFound
  | blocked (msg : String)
  | ok
deriving DecidableEq

/-- `soft_delete_category` (views.py): 404 when the id is unknown; blocked
with "Category has subcategories" when an active child exists; blocked with
"Products are linked" when `has_products` holds (never, for categories);
otherwise `is_active` is set to `False` and `{"success": True}` returned. -/
def soft_delete_category (db : DB) (cid : Nat) : SoftDeleteResult × DB :=
  match find? db.cats cid with
  | none => (.notFound, db)
  | some _ =>
    if activeChildExists db.cats cid then (.blocked "Category has subcategories", db)
    else if has_products_category db cid then (.blocked "Products are linked", db)
    else (.ok, { db with cats := setActive db.cats cid false })

/-- Outcome of the `toggle_category_status` AJAX view. -/
inductive ToggleResult where
  | notFound
  | ok (is_active : Bool)
deriving DecidableEq

/-- `toggle_category_status` (views.py): 404 when the id is unknown;
otherwise flips `is_active` and returns
`{"success": True, "is_active": <new value>}` — with no dependency check
of any kind. -/
def toggle_category_status (db : DB) (cid : Nat) : ToggleResult × DB :=
  match find? db.cats cid with
  | none => (.notFound, db)
  | some c => (.ok (!c.is_active), { db with cats := setActive db.cats cid (!c.is_active) })

/-- Outcome of `CategoryDeleteView.delete`. -/
inductive DeleteResult where
  | notFound
  | stillActive
  | hasDeps
  | protectedError
  | deleted
deriving DecidableEq

/-- `CategoryDeleteView.delete` (views.py), inside `transaction.atomic`:
abort when the category is still active, or when an active child exists or
`has_products` holds (never, for categories); otherwise Django's deletion
collector runs: the self-referential `parent` key is `on_delete=CASCADE`,
so the whole stored subtree is collected, and `Product.category` is
`on_delete=PROTECT`, so a product referencing any collected row raises
`ProtectedError` and the transaction rolls back with no mutation.  On
success every collected row is removed. -/
def category_delete_view (db : DB) (cid : Nat) : DeleteResult × DB :=
  match find? db.cats cid with
  | none => (.notFound, db)
  | some c =>
    if c.is_active then (.stillActive, db)
    else if activeChildExists db.cats cid || has_products_category db cid then (.hasDeps, db)
    else
      let collected := cid :: descendantsSorted db.cats cid
      if db.prods.any (fun p => decide (p.category ∈ collected)) then (.protectedError, db)
      else (.deleted, { db with cats := db.cats.filter (fun d => !(decide (d.id ∈ collected))) })

instance (s : Store) (c : Category) : Decidable (parentKeyOk s c) :=
  match h : c.parent with
  | none => isTrue (parentKeyOk_none h)
  | some p => decidable_of_iff (p ∈ ids s) (parentKeyOk_some h).symm

instance (r : Nat → Nat) (c : Category) : Decidable (rankOk r c) :=
  match h : c.parent with
  | none => isTrue (rankOk_none h)
  | some p => decidable_of_iff (r p < r c.id) (rankOk_some h).symm

/-- C5: the product guard of `soft_delete_category` never fires.  Category
1 is an active leaf (no children at all) referenced by product 1; the
specification says deactivation must fail with a DependencyError, but the
view reports success and persists `is_active = False`, because
`has_products` tests the nonexistent `products` attribute
(`Product.category` has no `related_name='products'`). -/
theorem c5_soft_delete_product_guard_dead :
    (soft_delete_category ⟨[⟨1, "Shoes", "shoes", none, "shoes", true⟩], [⟨1, 1⟩]⟩ 1).1
      = SoftDeleteResult.ok ∧
    (find? (soft_delete_category
        ⟨[⟨1, "Shoes", "shoes", none, "shoes", true⟩], [⟨1, 1⟩]⟩ 1).2.cats 1).map (·.is_active)
      = some false ∧
    productsReference ⟨[⟨1, "Shoes", "shoes", none, "shoes", true⟩], [⟨1, 1⟩]⟩ 1 = true ∧
    activeChildExists [⟨1, "Shoes", "shoes", none, "shoes", true⟩] 1 = false := by
  refine ⟨by decide, by decide, by decide, by decide⟩

/-- Shorthand fact: the category product guard is constantly false. -/
theorem has_products_category_false (db : DB) (cid : Nat) :
    has_products_category db cid = false := by
  simp [has_products_category, categoryHasProductsAttr]

/-- C6 (counterexample): category 1 is inactive, has no active child and no
product references IT — the claim says hard-deleting it succeeds — but its
inactive child 2 is referenced by a product, so the cascade hits the
PROTECT key, the view aborts with `ProtectedError`, and the row remains. -/
theorem c6_hard_delete_counterexample :
    ((⟨2, "B", "b", some 1, "a/b", false⟩ : Category).is_active = false ∧
      activeChildExists
        [⟨1, "A", "a", none, "a", false⟩, ⟨2, "B", "b", some 1, "a/b", false⟩] 1 = false ∧
      productsReference
        ⟨[⟨1, "A", "a", none, "a", false⟩, ⟨2, "B", "b", some 1, "a/b", false⟩], [⟨1, 2⟩]⟩ 1
        = false) ∧
    category_delete_view
        ⟨[⟨1, "A", "a", none, "a", false⟩, ⟨2, "B", "b", some 1, "a/b", false⟩], [⟨1, 2⟩]⟩ 1
      = (DeleteResult.protectedError,
          ⟨[⟨1, "A", "a", none, "a", false⟩, ⟨2, "B", "b", some 1, "a/b", false⟩], [⟨1, 2⟩]⟩) ∧
    find? (category_delete_view
        ⟨[⟨1, "A", "a", none, "a", false⟩, ⟨2, "B", "b", some 1, "a/b", false⟩], [⟨1, 2⟩]⟩
        1).2.cats 1 ≠ none := by
  refine ⟨⟨by decide, by decide, by decide⟩, by decide, by decide⟩

/-- C6 (amended): hard-deleting a still-active category fails with a
descriptive error and no mutation; hard-deleting an inactive category with
an active child fails likewise; hard-deleting an inactive category with no
active children and no product referencing it **or any of its stored
descendants** succeeds and the row becomes unreachable.  (A product
anywhere in the collected subtree instead aborts at the database PROTECT
key with no mutation, per the counterexample.) -/
theorem c6_hard_delete_guards (db : DB) (cid : Nat) (c : Category)
    (hc : find? db.cats cid = some c) :
    (c.is_active = true → category_delete_view db cid = (.stillActive, db)) ∧
    (c.is_active = false → activeChildExists db.cats cid = true →
      category_delete_view db cid = (.hasDeps, db)) ∧
    (c.is_active = false → activeChildExists db.cats cid = false →
      (∀ p ∈ db.prods, p.category ≠ cid ∧ isDesc db.cats cid p.category = false) →
      (category_delete_view db cid).1 = .deleted ∧
        find? (category_delete_view db cid).2.cats cid = none) := by
  refine ⟨?_, ?_, ?_⟩
  · intro h
    simp [category_delete_view, hc, h]
  · intro h1 h2
    simp [category_delete_view, hc, h1, h2]
  · intro h1 h2 h3
    have hor : (activeChildExists db.cats cid || has_products_category db cid) = false := by
      rw [h2, has_products_category_false]
      rfl
    have hany : (db.prods.any
        (fun p => decide (p.category ∈ cid :: descendantsSorted db.cats cid))) = false := by
      cases hx : (db.prods.any
          (fun p => decide (p.category ∈ cid :: descendantsSorted db.cats cid))) with
      | false => rfl
      | true =>
        exfalso
        rcases List.any_eq_true.mp hx with ⟨p, hp, hpred⟩
        have hmem := of_decide_eq_true hpred
        rcases List.mem_cons.mp hmem with h | h
        · exact (h3 p hp).1 h
        · have := (mem_descendantsSorted_elim h).2
          rw [(h3 p hp).2] at this
          cases this
    have hres : category_delete_view db cid
        = (.deleted, { db with cats := (db.cats.filter
            (fun d => !(decide (d.id ∈ cid :: descendantsSorted db.cats cid)))) }) := by
      simp [category_delete_view, hc, h1, hor, hany]
      intro x hx
      refine ⟨(h3 x hx).1, ?_⟩
      intro hmem
      have hd := (mem_descendantsSorted_elim hmem).2
      rw [(h3 x hx).2] at hd
      cases hd
    rw [hres]
    refine ⟨rfl, ?_⟩
    apply List.find?_eq_none.mpr
    intro x hx
    rcases List.mem_filter.mp hx with ⟨_, hpred⟩
    have hnotin : x.id ∉ cid :: descendantsSorted db.cats cid := by
      intro hmem
      rw [decide_eq_true hmem] at hpred
      cases hpred
    intro hdec
    exact hnotin (of_decide_eq_true hdec ▸ List.mem_cons_self cid _)

theorem c6_hard_delete_guards_witness :
    (category_delete_view ⟨[⟨1, "X", "x", none, "x", false⟩], []⟩ 1).1 = .deleted ∧
    find? (category_delete_view ⟨[⟨1, "X", "x", none, "x", false⟩], []⟩ 1).2.cats 1 = none :=
  (c6_hard_delete_guards ⟨[⟨1, "X", "x", none, "x", false⟩], []⟩ 1
      ⟨1, "X", "x", none, "x", false⟩ (by decide)).2.2 rfl (by decide) (by decide)

/-- C7: for every existing category id the toggle-status endpoint flips
`is_active` and reports success unconditionally — no hypothesis about
children or products appears, so an active category with active children
or linked products is deactivated the same way an inactive one is
reactivated. -/
theorem c7_toggle_status_unconditional (db : DB) (cid : Nat) (c : Category)
    (hc : find? db.cats cid = some c) :
    (toggle_category_status db cid).1 = .ok (!c.is_active) ∧
    find? (toggle_category_status db cid).2.cats cid
      = some { c with is_active := !c.is_active } := by
  constructor
  · simp [toggle_category_status, hc]
  · have h2 : (toggle_category_status db cid).2.cats = setActive db.cats cid (!c.is_active) := by
      simp [toggle_category_status, hc]
    rw [h2, find?_setActive, hc]
    simp [find?_id hc]

theorem c7_toggle_status_unconditional_witness :
    (toggle_category_status
        ⟨[⟨1, "A", "a", none, "a", true⟩, ⟨2, "B", "b", some 1, "a/b", true⟩], [⟨1, 1⟩]⟩ 1).1
      = .ok false ∧
    find? (toggle_category_status
        ⟨[⟨1, "A", "a", none, "a", true⟩, ⟨2, "B", "b", some 1, "a/b", true⟩], [⟨1, 1⟩]⟩
        1).2.cats 1
      = some ⟨1, "A", "a", none, "a", false⟩ := by
  have h := c7_toggle_status_unconditional
    ⟨[⟨1, "A", "a", none, "a", true⟩, ⟨2, "B", "b", some 1, "a/b", true⟩], [⟨1, 1⟩]⟩ 1
    ⟨1, "A", "a", none, "a", true⟩ (by decide)
  exact ⟨h.1, h.2⟩

/-- C8: hard-deleting a category removes its whole stored subtree — the
self-referential parent key cascades on delete — including inactive
descendants, which the guard never inspects (it checks only for *active*
children). -/
theorem c8_cascade_deletes_descendants (db : DB) (cid : Nat) (c : Category)
    (hw : WF db.cats)
    (hc : find? db.cats cid = some c)
    (hinact : c.is_active = false)
    (hnoact : activeChildExists db.cats cid = false)
    (hnoprod : ∀ p ∈ db.prods, p.category ≠ cid ∧ isDesc db.cats cid p.category = false) :
    (category_delete_view db cid).1 = .deleted ∧
    cid ∉ ids (category_delete_view db cid).2.cats ∧
    (∀ d ∈ db.cats, isDesc db.cats cid d.id = true →
      d.id ∉ ids (category_delete_view db cid).2.cats) := by
  have hor : (activeChildExists db.cats cid || has_products_category db cid) = false := by
    rw [hnoact, has_products_category_false]
    rfl
  have hany : (db.prods.any
      (fun p => decide (p.category ∈ cid :: descendantsSorted db.cats cid))) = false := by
    cases hx : (db.prods.any
        (fun p => decide (p.category ∈ cid :: descendantsSorted db.cats cid))) with
    | false => rfl
    | true =>
      exfalso
      rcases List.any_eq_true.mp hx with ⟨p, hp, hpred⟩
      have hmem := of_decide_eq_true hpred
      rcases List.mem_cons.mp hmem with h | h
      · exact (hnoprod p hp).1 h
      · have := (mem_descendantsSorted_elim h).2
        rw [(hnoprod p hp).2] at this
        cases this
  have hres : category_delete_view db cid
      = (.deleted, { db with cats := (db.cats.filter
          (fun d => !(decide (d.id ∈ cid :: descendantsSorted db.cats cid)))) }) := by
    simp [category_delete_view, hc, hinact, hor, hany]
    intro x hx
    refine ⟨(hnoprod x hx).1, ?_⟩
    intro hmem
    have hd := (mem_descendantsSorted_elim hmem).2
    rw [(hnoprod x hx).2] at hd
    cases hd
  have hgone : ∀ x, x ∈ cid :: descendantsSorted db.cats cid →
      x ∉ ids (category_delete_view db cid).2.cats := by
    intro x hxmem hxin
    rw [hres] at hxin
    rcases List.mem_map.mp hxin with ⟨row, hrow, hrowid⟩
    rcases List.mem_filter.mp hrow with ⟨_, hpred⟩
    rw [← hrowid] at hxmem
    rw [decide_eq_true hxmem] at hpred
    simp at hpred
  refine ⟨by rw [hres], ?_, ?_⟩
  · exact hgone cid (List.mem_cons_self cid _)
  · intro d hd hdesc
    apply hgone d.id
    apply List.mem_cons_of_mem
    exact mem_descendantsSorted_intro hw (List.mem_map_of_mem (·.id) hd) hdesc

theorem c8_cascade_deletes_descendants_witness :
    (category_delete_view
        ⟨[⟨1, "A", "a", none, "a", false⟩, ⟨2, "B", "b", some 1, "a/b", false⟩], []⟩ 1).1
      = .deleted ∧
    1 ∉ ids (category_delete_view
        ⟨[⟨1, "A", "a", none, "a", false⟩, ⟨2, "B", "b", some 1, "a/b", false⟩], []⟩ 1).2.cats ∧
    (∀ d ∈ [(⟨1, "A", "a", none, "a", false⟩ : Category), ⟨2, "B", "b", some 1, "a/b", false⟩],
      isDesc [(⟨1, "A", "a", none, "a", false⟩ : Category), ⟨2, "B", "b", some 1, "a/b", false⟩]
          1 d.id = true →
      d.id ∉ ids (category_delete_view
        ⟨[⟨1, "A", "a", none, "a", false⟩, ⟨2, "B", "b", some 1, "a/b", false⟩], []⟩ 1).2.cats) :=
  c8_cascade_deletes_descendants
    ⟨[⟨1, "A", "a", none, "a", false⟩, ⟨2, "B", "b", some 1, "a/b", false⟩], []⟩ 1
    ⟨1, "A", "a", none, "a", false⟩
    ⟨by decide, by decide, ⟨fun i => i, by decide⟩⟩
    (by decide) rfl (by decide) (by decide)

/-! ### `ProductVariant.clean` / `get_price` (claim C9) -/

/-- A product variant, restricted to the pricing fields the claim is about
(`DecimalField` values are exact rationals). -/
structure ProductVariant where
  sku : String
  price : ℚ
  sale_price : Option ℚ
  stock : Nat
  is_active : Bool

/-- `ProductVariant.clean`: `if self.sale_price and self.sale_price >=
self.price: raise ValidationError(...)`.  Python truthiness makes both
`None` and a zero `Decimal` falsy, so the comparison is skipped for a zero
sale price. -/
def variant_clean (v : ProductVariant) : Except String Unit :=
  match v.sale_price with
  | none => .ok ()
  | some sp =>
    if sp ≠ 0 ∧ sp ≥ v.price then .error "Sale price must be less than price." else .ok ()

/-- `ProductVariant.get_price`: `return self.sale_price or self.price` —
again by truthiness, a `None` **or zero** sale price yields `price`. -/
def get_price (v : ProductVariant) : ℚ :=
  match v.sale_price with
  | none => v.price
  | some sp => if sp = 0 then v.price else sp

/-- C9 (counterexample): the variant with `price = 10` and
`sale_price = 0` has `sale_price < price`, and `clean` accepts it — so by
the claim `get_price()` must return the sale price `0` — but `get_price()`
returns `10`: `sale_price or price` treats the zero `Decimal` as falsy. -/
theorem c9_zero_sale_price_counterexample :
    (⟨"SKU-1", 10, some 0, 5, true⟩ : ProductVariant).sale_price = some 0 ∧
    (0 : ℚ) < 10 ∧
    variant_clean ⟨"SKU-1", 10, some 0, 5, true⟩ = .ok () ∧
    get_price ⟨"SKU-1", 10, some 0, 5, true⟩ = 10 ∧
    get_price ⟨"SKU-1", 10, some 0, 5, true⟩ ≠ 0 := by
  refine ⟨rfl, by norm_num, ?_, ?_, ?_⟩
  · simp [variant_clean]
  · simp [get_price]
  · simp [get_price]

/-- C9 (amended): for a **non-zero** sale price, validation fails exactly
when `sale_price ≥ price`, and on success `get_price()` returns the sale
price; a `None` or zero sale price always validates and `get_price()`
falls back to `price`. -/
theorem c9_sale_price_validation (v : ProductVariant) :
    (∀ sp : ℚ, v.sale_price = some sp → sp ≠ 0 →
      ((sp < v.price → variant_clean v = .ok () ∧ get_price v = sp) ∧
        (v.price ≤ sp → ∃ e, variant_clean v = .error e))) ∧
    ((v.sale_price = none ∨ v.sale_price = some 0) →
      variant_clean v = .ok () ∧ get_price v = v.price) := by
  constructor
  · intro sp hsp hne
    constructor
    · intro hlt
      constructor
      · have : ¬(sp ≠ 0 ∧ sp ≥ v.price) := by
          intro h
          exact absurd hlt (not_lt.mpr h.2)
        simp [variant_clean, hsp, this]
      · simp [get_price, hsp, hne]
    · intro hge
      refine ⟨"Sale price must be less than price.", ?_⟩
      simp [variant_clean, hsp, hne, hge]
  · intro h
    rcases h with h | h
    · constructor
      · simp [variant_clean, h]
      · simp [get_price, h]
    · constructor
      · simp [variant_clean, h]
      · simp [get_price, h]

theorem c9_sale_price_validation_witness :
    ((4 : ℚ) < 10 → variant_clean ⟨"SKU-2", 10, some 4, 5, true⟩ = .ok () ∧
      get_price ⟨"SKU-2", 10, some 4, 5, true⟩ = 4) ∧
    ((10 : ℚ) ≤ 4 → ∃ e, variant_clean ⟨"SKU-2", 10, some 4, 5, true⟩ = .error e) :=
  (c9_sale_price_validation ⟨"SKU-2", 10, some 4, 5, true⟩).1 4 rfl (by norm_num)

/-! ### `Product.average_rating` (claim C10) -/

/-- A product review, restricted to the fields the aggregate uses. -/
structure ProductReview where
  rating : Nat
  is_approved : Bool
deriving DecidableEq

/-- `self.reviews.filter(is_approved=True)`, projected to ratings. -/
def approvedRatings (rs : List ProductReview) : List Nat :=
  (rs.filter (·.is_approved)).map (·.rating)

/-- `aggregate(avg=Avg('rating'))['avg']`: the SQL `AVG`, `NULL` (`none`)
over an empty set, otherwise the exact mean. -/
def avgAggregate (l : List Nat) : Option ℚ :=
  if l.isEmpty then none else some ((l.sum : ℚ) / (l.length : ℚ))

/-- `Product.average_rating`: the aggregate with `... or 0` — Python
truthiness sends both `None` and a zero average to `0` (which coincide in
value). -/
def average_rating (rs : List ProductReview) : ℚ :=
  match avgAggregate (approvedRatings rs) with
  | none => 0
  | some a => if a = 0 then 0 else a

/-- C10: `average_rating` is `0` when the product has no approved review,
and otherwise the arithmetic mean of the approved ratings (stated
multiplicatively: average times count equals sum); in particular the
reviews `[rating 5 approved, rating 1 unapproved]` average to `5`, not
`3`. -/
theorem c10_average_rating (rs : List ProductReview) :
    (approvedRatings rs = [] → average_rating rs = 0) ∧
    (approvedRatings rs ≠ [] →
      average_rating rs * ((approvedRatings rs).length : ℚ) = ((approvedRatings rs).sum : ℚ)) ∧
    average_rating [⟨5, true⟩, ⟨1, false⟩] = 5 ∧ (5 : ℚ) ≠ 3 := by
  refine ⟨?_, ?_, ?_, by norm_num⟩
  · intro h
    simp [average_rating, avgAggregate, h]
  · intro h
    have hlen : (approvedRatings rs).length ≠ 0 := by
      intro h0
      exact h (List.length_eq_zero.mp h0)
    have hlenq : ((approvedRatings rs).length : ℚ) ≠ 0 := Nat.cast_ne_zero.mpr hlen
    have hemp : (approvedRatings rs).isEmpty = false := by
      cases hh : approvedRatings rs with
      | nil => exact absurd hh h
      | cons a t => rfl
    have havg : average_rating rs
        = ((approvedRatings rs).sum : ℚ) / ((approvedRatings rs).length : ℚ) := by
      unfold average_rating avgAggregate
      rw [hemp]
      show (if ((approvedRatings rs).sum : ℚ) / ((approvedRatings rs).length : ℚ) = 0 then (0 : ℚ)
          else ((approvedRatings rs).sum : ℚ) / ((approvedRatings rs).length : ℚ))
        = ((approvedRatings rs).sum : ℚ) / ((approvedRatings rs).length : ℚ)
      by_cases hz : ((approvedRatings rs).sum : ℚ) / ((approvedRatings rs).length : ℚ) = 0
      · rw [if_pos hz, hz]
      · rw [if_neg hz]
    rw [havg, div_mul_cancel₀ _ hlenq]
  · have happ : approvedRatings [⟨5, true⟩, ⟨1, false⟩] = [5] := rfl
    unfold average_rating avgAggregate
    rw [happ]
    norm_num

theorem c10_average_rating_witness :
    approvedRatings [⟨5, true⟩, ⟨1, false⟩] ≠ [] ∧
    average_rating [⟨5, true⟩, ⟨1, false⟩]
        * ((approvedRatings [⟨5, true⟩, ⟨1, false⟩]).length : ℚ)
      = ((approvedRatings [⟨5, true⟩, ⟨1, false⟩]).sum : ℚ) :=
  ⟨by decide, (c10_average_rating [⟨5, true⟩, ⟨1, false⟩]).2.1 (by decide)⟩
